import Mathlib

/-!
Verification of the Request-Queue Overlay Tree (RQ tree) of node-smb-server.

The development shallowly embeds the two source files
`src/lib/backends/rq/tree.js` (the overlay tree) and
`src/lib/backends/fs/tree.js` (the plain filesystem tree) as pure Lean
functions.  Asynchronous collaborator calls (local tree, work tree, remote
tree, request queue) are modelled by passing their results as explicit
parameters or by explicit state passing on a `TreeState`.  Collaborators whose
code is not part of the two source files (the `utils` path helpers, the
`unorm` library, `RQFile`, the `RequestQueue` storage engine) are modelled
from the specification and are marked as such in their doc comments.
-/

set_option autoImplicit false

/-- Modelled from the spec: `utils.getParentPath` (the `utils` module is not
under src/).  Returns the slash-separated logical name with its final
component removed; a name without a slash has parent `""`. -/
def getParentPath (p : String) : String :=
  String.mk ((p.toList.reverse.dropWhile (fun c => c ≠ '/')).tail.reverse)

/-- Modelled from the spec: `utils.getPathName` (the `utils` module is not
under src/).  Returns the final slash-separated component of a logical name. -/
def getPathName (p : String) : String :=
  String.mk ((p.toList.reverse.takeWhile (fun c => c ≠ '/')).reverse)

/-- Modelled from the spec: the `unorm` library NFKD normalization used by
`unicodeEquals` in fs/tree.js (line 116), restricted to the canonical
decomposition of the precomposed characters appearing in this development
(the source comment itself cites the example pair written there with the
escapes U+00E9 versus U+0065 U+0301).  Every other character decomposes to
itself. -/
def nfkdChar (c : Char) : List Char :=
  if c = '\u00E9' then ['e', '\u0301']
  else if c = '\u00C9' then ['E', '\u0301']
  else [c]

/-- Modelled from the spec: `unorm.nfkd` applied to a whole string. -/
def nfkd (s : String) : String :=
  String.mk (s.toList.flatMap nfkdChar)

/-- From fs/tree.js lines 113-117: `unicodeEquals(str1, str2)` compares the
NFKD normal forms of the two strings. -/
def unicodeEquals (s1 s2 : String) : Bool :=
  nfkd s1 == nfkd s2

/-- From fs/tree.js line 118: the names of a directory listing that match a
pattern; `*` matches everything, otherwise the comparison is
`unicodeEquals`. -/
def matchingNames (files : List String) (pattern : String) : List String :=
  if pattern == "*" then files
  else files.filter (fun fileName => unicodeEquals fileName pattern)

/-- A file handle as exposed by the local, work and remote trees (§6 of the
spec: a handle exposes `getName`, `getPath`, `isDirectory`).  The name is the
final component of the path, so only the path and the directory flag are
stored. -/
structure FileInfo where
  path : String
  isDir : Bool
deriving DecidableEq, Repr, Inhabited

/-- The `getName` accessor of a handle: the basename of its path. -/
def FileInfo.getName (f : FileInfo) : String :=
  getPathName f.path

/-- An overlay file (an `RQFile`).  The first argument of each constructor is
the path string the source passes to the corresponding `RQFile` factory
(`createInstanceFromRemote`, `createInstanceFromLocal`,
`createInstanceFromLocalAndRemote`). -/
inductive RQFileEntry where
  | remoteOnly (path : String) (remote : FileInfo)
  | localOnly (path : String) (loc : FileInfo)
  | localAndRemote (path : String) (loc : FileInfo) (remote : FileInfo)
deriving DecidableEq, Repr

/-- The name an overlay file presents in a listing: the basename of its
backing handle (local when a local handle is present). -/
def entryName : RQFileEntry → String
  | .remoteOnly _ r => r.getName
  | .localOnly _ l => l.getName
  | .localAndRemote _ l _ => l.getName

/-- The local handle backing an overlay file, when there is one. -/
def entryLocal : RQFileEntry → Option FileInfo
  | .remoteOnly _ _ => none
  | .localOnly _ l => some l
  | .localAndRemote _ l _ => some l

/-- Lookup in an association list, mirroring a JavaScript object property
read: the most recently assigned binding (stored at the head) wins. -/
def assocFind {α : Type} (l : List (String × α)) (k : String) : Option α :=
  match l with
  | [] => none
  | (k1, v) :: rest => if k1 == k then some v else assocFind rest k

/-- From rq/tree.js line 332: `getCreateFileName(name)` is `name + '.rqcf'`. -/
def getCreateFileName (name : String) : String :=
  name ++ ".rqcf"

/-- The remote-pass survival test of rq/tree.js line 204: a remote entry is
kept when the pending request for its basename is not a DELETE. -/
def surviveB (requests : List (String × String)) (r : FileInfo) : Bool :=
  !(assocFind requests r.getName == some "DELETE")

/-- Pass 1 of the merge in rq/tree.js lines 203-209: walk the remote entries
with their original index `i`; each surviving entry is appended to `rqFiles`
as a remote-only overlay file, and its position is recorded in `lookup`
(position within `rqFiles`) and `remoteLookup` (original index). -/
def remotePass (requests : List (String × String)) :
    List FileInfo → Nat → List RQFileEntry → List (String × Nat) →
    List (String × Nat) →
    List RQFileEntry × List (String × Nat) × List (String × Nat)
  | [], _, rqFiles, lookup, remoteLookup => (rqFiles, lookup, remoteLookup)
  | r :: rest, i, rqFiles, lookup, remoteLookup =>
    if surviveB requests r then
      remotePass requests rest (i + 1)
        (rqFiles ++ [.remoteOnly r.path r])
        ((r.getName, rqFiles.length) :: lookup)
        ((r.getName, i) :: remoteLookup)
    else
      remotePass requests rest (i + 1) rqFiles lookup remoteLookup

/-- The side effects the merge performs while walking the local entries:
local files deleted by the orphan branch, their work-tree sidecar removals
(`RQFile.deleteWorkFiles` calls), and the files reported in conflict. -/
structure MergeEffects where
  deletedLocal : List String
  deletedWork : List String
  conflicts : List String
deriving DecidableEq, Repr

/-- Pass 2 of the merge, the `processLocal` recursion of rq/tree.js lines
210-287.  For each local entry: a temp file is appended as local-only (the
source passes `getName()` as the path in this branch); an entry whose
basename is in `lookup` replaces the remote-only overlay file in place by a
merged local-and-remote file; otherwise the entry is appended as local-only
when its creation marker exists in the work tree, deleted (with its work
files) when `canDelete` holds, and appended with a conflict report when it
does not. -/
def processLocal (isTemp workExists canDelete : String → Bool)
    (remoteFiles : List FileInfo) (lookup remoteLookup : List (String × Nat)) :
    List FileInfo → List RQFileEntry → MergeEffects →
    List RQFileEntry × MergeEffects
  | [], rqFiles, eff => (rqFiles, eff)
  | l :: rest, rqFiles, eff =>
    if isTemp l.getName then
      processLocal isTemp workExists canDelete remoteFiles lookup remoteLookup
        rest (rqFiles ++ [.localOnly l.getName l]) eff
    else
      match assocFind lookup l.getName with
      | some remoteIndex =>
        let origRemoteIndex := (assocFind remoteLookup l.getName).getD 0
        let r := remoteFiles.getD origRemoteIndex default
        processLocal isTemp workExists canDelete remoteFiles lookup
          remoteLookup rest
          (rqFiles.set remoteIndex (.localAndRemote l.path l r)) eff
      | none =>
        if workExists (getCreateFileName l.path) then
          processLocal isTemp workExists canDelete remoteFiles lookup
            remoteLookup rest (rqFiles ++ [.localOnly l.path l]) eff
        else if canDelete l.path then
          processLocal isTemp workExists canDelete remoteFiles lookup
            remoteLookup rest rqFiles
            { eff with
              deletedLocal := eff.deletedLocal ++ [l.path],
              deletedWork := eff.deletedWork ++ [l.path] }
        else
          processLocal isTemp workExists canDelete remoteFiles lookup
            remoteLookup rest (rqFiles ++ [.localOnly l.path l])
            { eff with conflicts := eff.conflicts ++ [l.path] }

/-- The complete two-pass merge of rq/tree.js lines 199-287, given the
remote listing, the local listing and the pending-request mapping. -/
def rqMerge (isTemp workExists canDelete : String → Bool)
    (requests : List (String × String))
    (remoteFiles localFiles : List FileInfo) :
    List RQFileEntry × MergeEffects :=
  match remotePass requests remoteFiles 0 [] [] [] with
  | (rqFiles, lookup, remoteLookup) =>
    processLocal isTemp workExists canDelete remoteFiles lookup remoteLookup
      localFiles rqFiles ⟨[], [], []⟩

/-- An error reported to a client callback (§7 of the spec; the `SMBError`
translation layer is not under src/, so only the kinds the claims need are
distinguished). -/
inductive SMBErr where
  | notFound
  | alreadyExists
  | other (msg : String)
deriving DecidableEq, Repr

/-- An error reported by the durable request queue. -/
structure QErr where
  msg : String
deriving DecidableEq, Repr

/-- A pending mutation as built by `queueData` (rq/tree.js lines 308-317). -/
structure QueueEntry where
  method : String
  path : String
  destPath : Option String
  remotePrefix : String
  localPrefix : String
deriving DecidableEq, Repr

/-- The share configuration fragment `queueData` reads:
`share.buildResourceUrl('')` and `share.config.local.path`. -/
structure ShareConfig where
  remoteRoot : String
  localRoot : String
deriving DecidableEq, Repr

/-- From rq/tree.js lines 306-325: `queueData(name, method, newName)` builds
the request options and skips queueing exactly when the name is a temp file
and, if a destination is given, the destination is also a temp file.  The
returned value is the entry handed to `rq.queueRequest`, or `none` when the
request is skipped. -/
def RQTree.queueData (isTemp : String → Bool) (cfg : ShareConfig)
    (name method : String) (newName : Option String) : Option QueueEntry :=
  let isTempFile := isTemp name
  let options : QueueEntry :=
    { method := method, path := name, destPath := none,
      remotePrefix := cfg.remoteRoot, localPrefix := cfg.localRoot }
  match newName with
  | some d =>
    let options := { options with destPath := some d }
    let isTempFile := isTempFile && isTemp d
    if !isTempFile then some options else none
  | none =>
    if !isTempFile then some options else none

/-- The effect of a `queueData` call on the durable queue: when an entry is
produced it is appended by `rq.queueRequest`; a failure of `queueRequest` is
only logged (rq/tree.js lines 319-323), so on failure the queue is
unchanged and no error escapes. -/
def RQTree.queueDataApply (isTemp : String → Bool) (cfg : ShareConfig)
    (name method : String) (newName : Option String)
    (qres : Except QErr Unit) (q : List QueueEntry) : List QueueEntry :=
  match RQTree.queueData isTemp cfg name method newName with
  | none => q
  | some e =>
    match qres with
    | .ok _ => q ++ [e]
    | .error _ => q

/-- The state of the purely local collaborators: cached files in L, sidecar
paths in W, the durable queue Q, and the in-memory `createdFiles` set. -/
structure TreeState where
  localFiles : List FileInfo
  workFiles : List String
  queue : List QueueEntry
  createdFiles : List String
deriving DecidableEq, Repr

/-- Existence of a path in the local tree (fs/tree.js lines 69-78: a stat
succeeding on the path). -/
def localExistsB (s : TreeState) (p : String) : Bool :=
  s.localFiles.any (fun f => f.path == p)

/-- Modelled from the spec: `RQFile.deleteWorkFiles` (RQFile is not under
src/) removes the sidecars of a name from the work tree; the only sidecar
the spec defines is the creation marker `<name>.rqcf`. -/
def deleteWorkFiles (name : String) (w : List String) : List String :=
  w.filter (fun p => p ≠ getCreateFileName name)

/-- The outcome of a client-facing mutation: the updated local state and the
value passed to the client callback. -/
structure OpResult where
  state : TreeState
  cbErr : Option SMBErr
deriving DecidableEq, Repr

/-- From rq/tree.js lines 391-418: `delete(name)`.  When the name exists
locally it is deleted from L, a DELETE is queued via `queueData` (whose
`queueRequest` failure is only logged), the work files are removed (their
deletion failure is also only logged) and the callback receives no error.
Otherwise the deletion is forwarded to the remote tree, which is external
and modelled as succeeding without touching the local state. -/
def RQTree.delete (isTemp : String → Bool) (cfg : ShareConfig)
    (qres : Except QErr Unit) (name : String) (s : TreeState) : OpResult :=
  if localExistsB s name then
    let s1 := { s with localFiles := s.localFiles.filter (fun f => f.path ≠ name) }
    let s2 := { s1 with queue := RQTree.queueDataApply isTemp cfg name "DELETE" none qres s1.queue }
    let s3 := { s2 with workFiles := deleteWorkFiles name s2.workFiles }
    { state := s3, cbErr := none }
  else
    { state := s, cbErr := none }

/-- From rq/tree.js lines 343-361: `createFile(name)` creates the file in L
(the local tree opens with the exclusive flag, fs/tree.js line 145, so an
existing file fails with AlreadyExists), creates the `<name>.rqcf` marker in
W the same way, records the name in `createdFiles`, and returns an overlay
file backed only by the new local handle.  No queue entry is produced here. -/
def RQTree.createFile (name : String) (s : TreeState) :
    Except SMBErr (TreeState × RQFileEntry) :=
  if localExistsB s name then .error .alreadyExists
  else
    let newFile : FileInfo := { path := name, isDir := false }
    let s1 := { s with localFiles := s.localFiles ++ [newFile] }
    if s1.workFiles.contains (getCreateFileName name) then .error .alreadyExists
    else
      let s2 := { s1 with workFiles := s1.workFiles ++ [getCreateFileName name] }
      let s3 := { s2 with createdFiles := s2.createdFiles ++ [name] }
      .ok (s3, .localOnly name newFile)

/-- Modelled from the spec: `FSTree.open` delegates to
`FSFile.createInstance` (file.js is not under src/); opening a name that is
absent from the local tree fails with NotFound (§4.1.2 and §7). -/
def localOpen (files : List FileInfo) (name : String) : Except SMBErr FileInfo :=
  match files.find? (fun f => f.path == name) with
  | some f => .ok f
  | none => .error .notFound

/-- From rq/tree.js lines 131-171: `open(name)` checks remote existence and
local existence; a remote-only name yields a remote-backed overlay file, and
every other case opens the local file first (so a name in neither tree fails
with the local NotFound), then builds a local-only or local-and-remote
overlay file. -/
def RQTree.open (localFiles : List FileInfo) (remoteExists : Bool)
    (name : String) (remoteHandle : FileInfo) : Except SMBErr RQFileEntry :=
  let localExists := localFiles.any (fun f => f.path == name)
  if remoteExists && !localExists then
    .ok (.remoteOnly name remoteHandle)
  else
    match localOpen localFiles name with
    | .error e => .error e
    | .ok lf =>
      if !remoteExists then .ok (.localOnly name lf)
      else .ok (.localAndRemote name lf remoteHandle)

/-- Whether the first character list is an initial segment of the second. -/
def charsLead : List Char → List Char → Bool
  | [], _ => true
  | _ :: _, [] => false
  | c :: cs, d :: ds => c == d && charsLead cs ds

/-- Whether `pre` is an initial segment of `s`. -/
def strLeads (pre s : String) : Bool :=
  charsLead pre.toList s.toList

/-- Renaming one path under a rename of `oldP` to `newP`: the path itself is
replaced, and a path strictly below `oldP` is rebased onto `newP` (the
behavior of a filesystem rename of a directory). -/
def rebasePath (oldP newP p : String) : String :=
  if p == oldP then newP
  else if strLeads (oldP ++ "/") p then
    String.mk (newP.toList ++ p.toList.drop oldP.toList.length)
  else p

/-- Modelled from the spec: `RequestQueue.updatePath(oldPrefix, newPrefix)`
(the requestqueue module is not under src/) re-parents pending entries,
replacing the old prefix of each entry path and destination path with the
new one. -/
def RequestQueue.updatePath (oldP newP : String) (q : List QueueEntry) :
    List QueueEntry :=
  q.map (fun e =>
    { e with
      path := rebasePath oldP newP e.path,
      destPath := e.destPath.map (rebasePath oldP newP) })

/-- A remote (DAM tree) call performed eagerly by a mutation. -/
inductive RemoteOp where
  | renameRemote (oldName newName : String)
deriving DecidableEq, Repr

/-- From rq/tree.js lines 479-566: `rename(oldName, newName)`.  When the old
name exists locally: rename it in L; rename the `.rqcf` marker in W when
present; rename the plain work entry in W when present; then, when the
renamed entry is a directory, rename eagerly on the remote tree and
re-parent the queue with `rq.updatePath`, and otherwise queue a MOVE through
`queueData`.  When the old name is not local the rename is forwarded to the
remote tree (modelled as succeeding without local effect). -/
def RQTree.rename (isTemp : String → Bool) (cfg : ShareConfig)
    (qres : Except QErr Unit) (oldName newName : String) (s : TreeState) :
    OpResult × List RemoteOp :=
  if localExistsB s oldName then
    let renamedFiles := s.localFiles.map
      (fun f => { f with path := rebasePath oldName newName f.path })
    let s1 := { s with localFiles := renamedFiles }
    let isDirB := ((s1.localFiles.find? (fun f => f.path == newName)).map
      (fun f => f.isDir)).getD false
    let createdExists := s.workFiles.contains (getCreateFileName oldName)
    let s2 :=
      if createdExists then
        { s1 with workFiles :=
            s1.workFiles.map (rebasePath (getCreateFileName oldName) (getCreateFileName newName)) }
      else s1
    let workOldExists := s.workFiles.contains oldName
    let s3 :=
      if workOldExists then
        { s2 with workFiles := s2.workFiles.map (rebasePath oldName newName) }
      else s2
    if isDirB then
      let s4 := { s3 with queue := RequestQueue.updatePath oldName newName s3.queue }
      (⟨s4, none⟩, [.renameRemote oldName newName])
    else
      let s4 := { s3 with queue :=
        RQTree.queueDataApply isTemp cfg oldName "MOVE" (some newName) qres s3.queue }
      (⟨s4, none⟩, [])
  else
    (⟨s, none⟩, [])

/-- From fs/tree.js lines 101-127: the local listing for a pattern reads the
directory of the parent of the pattern and keeps the entries whose names
match the pattern basename (`matchingNames`). -/
def FSTree.list (files : List FileInfo) (pattern : String) : List FileInfo :=
  let parentPath := getParentPath pattern
  let pname := getPathName pattern
  let dirFiles := files.filter (fun f => getParentPath f.path == parentPath)
  if pname == "*" then dirFiles
  else dirFiles.filter (fun f => unicodeEquals f.getName pname)

/-- The outcome of `RQTree.list`: an error callback, the raw remote listing
(when the parent directory is not cached locally), the merged listing with
its effects, or a crash of the callback chain (an uncaught JavaScript
TypeError). -/
inductive ListOutcome where
  | fail (e : SMBErr)
  | rawRemote (files : List FileInfo)
  | merged (files : List RQFileEntry) (eff : MergeEffects)
  | crash
deriving DecidableEq, Repr

/-- From rq/tree.js lines 181-298: `list(pattern)` with the results of the
collaborator calls passed explicitly.  The error argument of
`rq.getRequests` (line 198) is never inspected by the source: on a queue
error the callback still runs with an undefined `requests`, so the first
iteration of the remote loop (line 204) indexes into `undefined` and throws,
which is modelled as `crash`; when the remote listing is empty the loop body
never executes, `requests` is referenced nowhere else, and the merge
proceeds exactly as with an empty request mapping. -/
def RQTree.list (isTemp workExists canDelete : String → Bool)
    (remoteRes : Except SMBErr (List FileInfo))
    (parentRes : Except SMBErr Bool)
    (localRes : Except SMBErr (List FileInfo))
    (reqRes : Except QErr (List (String × String))) : ListOutcome :=
  match remoteRes with
  | .error e => .fail e
  | .ok remoteFiles =>
    match parentRes with
    | .error e => .fail e
    | .ok false => .rawRemote remoteFiles
    | .ok true =>
      match localRes with
      | .error e => .fail e
      | .ok localFiles =>
        match reqRes with
        | .ok requests =>
          match rqMerge isTemp workExists canDelete requests remoteFiles localFiles with
          | (files, eff) => .merged files eff
        | .error _ =>
          if remoteFiles.isEmpty then
            match rqMerge isTemp workExists canDelete [] remoteFiles localFiles with
            | (files, eff) => .merged files eff
          else .crash

/-- `list` driven by a `TreeState`: the local collaborator results are read
off the state (parent existence via a local stat, local listing via
`FSTree.list`), while the remote listing and the queue result stay
explicit. -/
def RQTree.listOfState (isTemp workExists canDelete : String → Bool)
    (s : TreeState) (pattern : String) (remoteFiles : List FileInfo)
    (reqRes : Except QErr (List (String × String))) : ListOutcome :=
  RQTree.list isTemp workExists canDelete (.ok remoteFiles)
    (.ok (localExistsB s (getParentPath pattern)))
    (.ok (FSTree.list s.localFiles pattern)) reqRes

/-- A concrete temporary-name predicate used by the concrete instances in
this development (§6: the share provides the predicate; names beginning with
a tilde are the typical example). -/
def tempName (s : String) : Bool :=
  strLeads "~" (getPathName s)

/-- The surviving remote entries of a listing: those not hidden by a pending
DELETE. -/
def survivors (requests : List (String × String)) (remoteFiles : List FileInfo) :
    List FileInfo :=
  remoteFiles.filter (surviveB requests)

/-- The bindings pass 1 accumulates in `lookup`, listed with the most recent
assignment first; `n` is the number of overlay files already emitted. -/
def pass1Lookup (requests : List (String × String)) :
    List FileInfo → Nat → List (String × Nat)
  | [], _ => []
  | r :: rest, n =>
    if surviveB requests r then
      pass1Lookup requests rest (n + 1) ++ [(r.getName, n)]
    else pass1Lookup requests rest n

/-- The bindings pass 1 accumulates in `remoteLookup`, most recent first;
`i` is the index of the head of the remaining remote listing. -/
def pass1RLook (requests : List (String × String)) :
    List FileInfo → Nat → List (String × Nat)
  | [], _ => []
  | r :: rest, i =>
    if surviveB requests r then
      pass1RLook requests rest (i + 1) ++ [(r.getName, i)]
    else pass1RLook requests rest (i + 1)

/-- The overlay files pass 1 emits: the surviving remote entries as
remote-only files. -/
def mergeBase (requests : List (String × String)) (remoteFiles : List FileInfo) :
    List RQFileEntry :=
  (survivors requests remoteFiles).map (fun r => RQFileEntry.remoteOnly r.path r)

theorem remotePass_closed (requests : List (String × String)) :
    ∀ (rs : List FileInfo) (i : Nat) (rq : List RQFileEntry)
      (lk rlk : List (String × Nat)),
    remotePass requests rs i rq lk rlk
      = (rq ++ (survivors requests rs).map (fun r => RQFileEntry.remoteOnly r.path r),
         pass1Lookup requests rs rq.length ++ lk,
         pass1RLook requests rs i ++ rlk) := by
  intro rs
  induction rs with
  | nil => intro i rq lk rlk; simp [remotePass, survivors, pass1Lookup, pass1RLook]
  | cons r rest ih =>
    intro i rq lk rlk
    cases h : surviveB requests r with
    | true =>
      rw [remotePass, if_pos h, ih]
      simp [survivors, List.filter_cons, h, pass1Lookup, pass1RLook,
        List.append_assoc]
    | false =>
      rw [remotePass, if_neg (by simp [h]), ih]
      simp [survivors, List.filter_cons, h, pass1Lookup, pass1RLook]

theorem assocFind_eq_some_imp_mem {α : Type} {l : List (String × α)} {k : String}
    {v : α} (h : assocFind l k = some v) : (k, v) ∈ l := by
  induction l with
  | nil => simp [assocFind] at h
  | cons p rest ih =>
    obtain ⟨k1, v1⟩ := p
    by_cases hk : k1 == k
    · simp only [assocFind, hk, if_true, Option.some.injEq] at h
      have : k1 = k := by simpa using hk
      subst this; subst h; exact List.mem_cons_self _ _
    · simp only [assocFind, hk, if_false] at h
      exact List.mem_cons_of_mem _ (ih h)

theorem assocFind_eq_none_iff {α : Type} {l : List (String × α)} {k : String} :
    assocFind l k = none ↔ k ∉ l.map Prod.fst := by
  induction l with
  | nil => simp [assocFind]
  | cons p rest ih =>
    obtain ⟨k1, v1⟩ := p
    by_cases hk : k1 = k
    · subst hk
      simp [assocFind]
    · have hstep : assocFind ((k1, v1) :: rest) k = assocFind rest k := by
        simp [assocFind, hk]
      rw [hstep, ih, List.map_cons, List.mem_cons]
      constructor
      · intro h hcon
        rcases hcon with h1 | h1
        · exact hk h1.symm
        · exact h h1
      · intro h hm
        exact h (Or.inr hm)

theorem assocFind_eq_some_of_mem_nodup {α : Type} {l : List (String × α)}
    {k : String} {v : α} (hn : (l.map Prod.fst).Nodup) (hm : (k, v) ∈ l) :
    assocFind l k = some v := by
  induction l with
  | nil => simp at hm
  | cons p rest ih =>
    obtain ⟨k1, v1⟩ := p
    simp only [List.map_cons, List.nodup_cons] at hn
    rcases List.mem_cons.1 hm with h | h
    · injection h with h1 h2
      subst h1
      subst h2
      simp [assocFind]
    · have hne : k1 ≠ k := by
        intro he
        subst he
        exact hn.1 (List.mem_map.2 ⟨(k1, v), h, rfl⟩)
      simp only [assocFind, show (k1 == k) = false by simpa using hne, if_false]
      exact ih hn.2 h

theorem pass1Lookup_mem (requests : List (String × String)) :
    ∀ (rs : List FileInfo) (n : Nat) (nm : String) (j : Nat),
    (nm, j) ∈ pass1Lookup requests rs n ↔
      ∃ k r, (survivors requests rs)[k]? = some r ∧ FileInfo.getName r = nm ∧
        j = n + k := by
  intro rs
  induction rs with
  | nil => intro n nm j; simp [pass1Lookup, survivors]
  | cons r rest ih =>
    intro n nm j
    cases h : surviveB requests r with
    | true =>
      rw [pass1Lookup, if_pos h]
      have hsurv : survivors requests (r :: rest) = r :: survivors requests rest := by
        simp [survivors, List.filter_cons, h]
      rw [hsurv]
      simp only [List.mem_append, List.mem_singleton, ih]
      constructor
      · rintro (⟨k, r1, hk, hnm, hj⟩ | heq)
        · exact ⟨k + 1, r1, by simpa using hk, hnm, by omega⟩
        · injection heq with h1 h2
          exact ⟨0, r, by simp, h1.symm, by omega⟩
      · rintro ⟨k, r1, hk, hnm, hj⟩
        cases k with
        | zero =>
          right
          simp only [List.getElem?_cons_zero, Option.some.injEq] at hk
          subst hk
          rw [hnm]
          simp [hj]
        | succ k =>
          left
          exact ⟨k, r1, by simpa using hk, hnm, by omega⟩
    | false =>
      rw [pass1Lookup, if_neg (by simp [h])]
      have hsurv : survivors requests (r :: rest) = survivors requests rest := by
        simp [survivors, List.filter_cons, h]
      rw [hsurv]
      exact ih n nm j

theorem pass1RLook_mem (requests : List (String × String)) :
    ∀ (rs : List FileInfo) (i : Nat) (nm : String) (j : Nat),
    (nm, j) ∈ pass1RLook requests rs i ↔
      ∃ k r, rs[k]? = some r ∧ surviveB requests r = true ∧
        FileInfo.getName r = nm ∧ j = i + k := by
  intro rs
  induction rs with
  | nil => intro i nm j; simp [pass1RLook]
  | cons r rest ih =>
    intro i nm j
    cases h : surviveB requests r with
    | true =>
      rw [pass1RLook, if_pos h]
      simp only [List.mem_append, List.mem_singleton, ih]
      constructor
      · rintro (⟨k, r1, hk, hsv, hnm, hj⟩ | heq)
        · exact ⟨k + 1, r1, by simpa using hk, hsv, hnm, by omega⟩
        · injection heq with h1 h2
          exact ⟨0, r, by simp, h, h1.symm, by omega⟩
      · rintro ⟨k, r1, hk, hsv, hnm, hj⟩
        cases k with
        | zero =>
          right
          simp only [List.getElem?_cons_zero, Option.some.injEq] at hk
          subst hk
          rw [hnm]
          simp [hj]
        | succ k =>
          left
          exact ⟨k, r1, by simpa using hk, hsv, hnm, by omega⟩
    | false =>
      rw [pass1RLook, if_neg (by simp [h])]
      rw [ih]
      constructor
      · rintro ⟨k, r1, hk, hsv, hnm, hj⟩
        exact ⟨k + 1, r1, by simpa using hk, hsv, hnm, by omega⟩
      · rintro ⟨k, r1, hk, hsv, hnm, hj⟩
        cases k with
        | zero =>
          simp only [List.getElem?_cons_zero, Option.some.injEq] at hk
          subst hk
          rw [h] at hsv
          cases hsv
        | succ k =>
          exact ⟨k, r1, by simpa using hk, hsv, hnm, by omega⟩

theorem pass1Lookup_keys (requests : List (String × String)) :
    ∀ (rs : List FileInfo) (n : Nat),
    (pass1Lookup requests rs n).map Prod.fst
      = ((survivors requests rs).map FileInfo.getName).reverse := by
  intro rs
  induction rs with
  | nil => intro n; simp [pass1Lookup, survivors]
  | cons r rest ih =>
    intro n
    cases h : surviveB requests r with
    | true =>
      rw [pass1Lookup, if_pos h]
      simp [survivors, List.filter_cons, h, ih, List.reverse_cons]
    | false =>
      rw [pass1Lookup, if_neg (by simp [h])]
      simp [survivors, List.filter_cons, h, ih]

theorem pass1RLook_keys (requests : List (String × String)) :
    ∀ (rs : List FileInfo) (i : Nat),
    (pass1RLook requests rs i).map Prod.fst
      = ((survivors requests rs).map FileInfo.getName).reverse := by
  intro rs
  induction rs with
  | nil => intro i; simp [pass1RLook, survivors]
  | cons r rest ih =>
    intro i
    cases h : surviveB requests r with
    | true =>
      rw [pass1RLook, if_pos h]
      simp [survivors, List.filter_cons, h, ih, List.reverse_cons]
    | false =>
      rw [pass1RLook, if_neg (by simp [h])]
      simp [survivors, List.filter_cons, h, ih]

theorem survivors_names_nodup (requests : List (String × String))
    (remoteFiles : List FileInfo)
    (hR : (remoteFiles.map FileInfo.getName).Nodup) :
    ((survivors requests remoteFiles).map FileInfo.getName).Nodup :=
  ((List.filter_sublist remoteFiles).map FileInfo.getName).nodup hR

theorem lookup_iff (requests : List (String × String))
    (remoteFiles : List FileInfo)
    (hR : (remoteFiles.map FileInfo.getName).Nodup) (nm : String) (j : Nat) :
    assocFind (pass1Lookup requests remoteFiles 0) nm = some j ↔
      ∃ r, (survivors requests remoteFiles)[j]? = some r ∧
        FileInfo.getName r = nm := by
  constructor
  · intro h
    have hm := assocFind_eq_some_imp_mem h
    rw [pass1Lookup_mem] at hm
    obtain ⟨k, r, hk, hnm, hj⟩ := hm
    have hjk : j = k := by omega
    subst hjk
    exact ⟨r, hk, hnm⟩
  · rintro ⟨r, hj, hnm⟩
    apply assocFind_eq_some_of_mem_nodup
    · rw [pass1Lookup_keys]
      exact List.nodup_reverse.2 (survivors_names_nodup requests remoteFiles hR)
    · rw [pass1Lookup_mem]
      exact ⟨j, r, hj, hnm, by omega⟩

theorem lookup_lt (requests : List (String × String))
    (remoteFiles : List FileInfo)
    (hR : (remoteFiles.map FileInfo.getName).Nodup) (nm : String) (j : Nat)
    (h : assocFind (pass1Lookup requests remoteFiles 0) nm = some j) :
    j < (survivors requests remoteFiles).length := by
  obtain ⟨r, hj, _⟩ := (lookup_iff requests remoteFiles hR nm j).1 h
  obtain ⟨hlt, _⟩ := List.getElem?_eq_some_iff.1 hj
  exact hlt

theorem lookup_inj (requests : List (String × String))
    (remoteFiles : List FileInfo)
    (hR : (remoteFiles.map FileInfo.getName).Nodup) (nm1 nm2 : String)
    (j : Nat)
    (h1 : assocFind (pass1Lookup requests remoteFiles 0) nm1 = some j)
    (h2 : assocFind (pass1Lookup requests remoteFiles 0) nm2 = some j) :
    nm1 = nm2 := by
  obtain ⟨r1, hj1, hn1⟩ := (lookup_iff requests remoteFiles hR nm1 j).1 h1
  obtain ⟨r2, hj2, hn2⟩ := (lookup_iff requests remoteFiles hR nm2 j).1 h2
  rw [hj1] at hj2
  injection hj2 with hj2
  subst hj2
  rw [← hn1, ← hn2]

theorem rlook_val (requests : List (String × String))
    (remoteFiles : List FileInfo)
    (hR : (remoteFiles.map FileInfo.getName).Nodup) (nm : String) (j : Nat)
    (r : FileInfo)
    (hfind : assocFind (pass1Lookup requests remoteFiles 0) nm = some j)
    (hj : (survivors requests remoteFiles)[j]? = some r) :
    remoteFiles.getD
      ((assocFind (pass1RLook requests remoteFiles 0) nm).getD 0) default
      = r := by
  obtain ⟨r1, hj1, hn1⟩ := (lookup_iff requests remoteFiles hR nm j).1 hfind
  rw [hj] at hj1
  injection hj1 with hj1
  subst hj1
  have hrmemS : r ∈ survivors requests remoteFiles := List.getElem?_mem hj
  have hrmem : r ∈ remoteFiles := (List.mem_filter.1 hrmemS).1
  have hmemname : nm ∈ (pass1RLook requests remoteFiles 0).map Prod.fst := by
    rw [pass1RLook_keys]
    exact List.mem_reverse.2 (List.mem_map.2 ⟨r, hrmemS, hn1⟩)
  cases hfd : assocFind (pass1RLook requests remoteFiles 0) nm with
  | none => exact absurd hmemname (assocFind_eq_none_iff.1 hfd)
  | some i =>
    have hmem := assocFind_eq_some_imp_mem hfd
    rw [pass1RLook_mem] at hmem
    obtain ⟨k, r2, hk2, hsv2, hn2, hik⟩ := hmem
    have hik2 : i = k := by omega
    subst hik2
    have hget : remoteFiles.getD i default = r2 := by
      rw [List.getD_eq_getElem?_getD, hk2]
      rfl
    have hr2mem : r2 ∈ remoteFiles := List.getElem?_mem hk2
    have heqr : r2 = r :=
      List.inj_on_of_nodup_map hR hr2mem hrmem (by rw [hn2, hn1])
    rw [show (Option.getD (some i) 0) = i from rfl, hget, heqr]

/-- The merged overlay file the in-place update writes for a matched local
entry (rq/tree.js lines 223-230). -/
def mergedVal (remoteFiles : List FileInfo) (rlook : List (String × Nat))
    (l : FileInfo) : RQFileEntry :=
  .localAndRemote l.path l
    (remoteFiles.getD ((assocFind rlook l.getName).getD 0) default)

/-- The in-place updates pass 2 performs on the overlay files emitted by
pass 1. -/
def pass2Sets (isTemp : String → Bool) (remoteFiles : List FileInfo)
    (lookup rlook : List (String × Nat)) :
    List FileInfo → List RQFileEntry → List RQFileEntry
  | [], P => P
  | l :: rest, P =>
    if isTemp l.getName then pass2Sets isTemp remoteFiles lookup rlook rest P
    else
      match assocFind lookup l.getName with
      | some j =>
        pass2Sets isTemp remoteFiles lookup rlook rest
          (P.set j (mergedVal remoteFiles rlook l))
      | none => pass2Sets isTemp remoteFiles lookup rlook rest P

/-- The overlay files pass 2 appends after the remote block. -/
def pass2Append (isTemp workExists canDelete : String → Bool)
    (lookup : List (String × Nat)) (ls : List FileInfo) : List RQFileEntry :=
  ls.filterMap (fun l =>
    if isTemp l.getName then some (.localOnly l.getName l)
    else
      match assocFind lookup l.getName with
      | some _ => none
      | none =>
        if workExists (getCreateFileName l.path) then some (.localOnly l.path l)
        else if canDelete l.path then none
        else some (.localOnly l.path l))

/-- The local paths the orphan branch of pass 2 deletes. -/
def pass2Del (isTemp workExists canDelete : String → Bool)
    (lookup : List (String × Nat)) (ls : List FileInfo) : List String :=
  ls.filterMap (fun l =>
    if isTemp l.getName then none
    else
      match assocFind lookup l.getName with
      | some _ => none
      | none =>
        if workExists (getCreateFileName l.path) then none
        else if canDelete l.path then some l.path
        else none)

/-- The local paths the orphan branch of pass 2 reports in conflict. -/
def pass2Conf (isTemp workExists canDelete : String → Bool)
    (lookup : List (String × Nat)) (ls : List FileInfo) : List String :=
  ls.filterMap (fun l =>
    if isTemp l.getName then none
    else
      match assocFind lookup l.getName with
      | some _ => none
      | none =>
        if workExists (getCreateFileName l.path) then none
        else if canDelete l.path then none
        else some l.path)

theorem processLocal_split (isTemp workExists canDelete : String → Bool)
    (remoteFiles : List FileInfo) (lookup rlook : List (String × Nat)) :
    ∀ (ls : List FileInfo) (P A : List RQFileEntry) (eff : MergeEffects),
    (∀ nm j, assocFind lookup nm = some j → j < P.length) →
    processLocal isTemp workExists canDelete remoteFiles lookup rlook ls
        (P ++ A) eff
      = (pass2Sets isTemp remoteFiles lookup rlook ls P
          ++ (A ++ pass2Append isTemp workExists canDelete lookup ls),
         ⟨eff.deletedLocal ++ pass2Del isTemp workExists canDelete lookup ls,
          eff.deletedWork ++ pass2Del isTemp workExists canDelete lookup ls,
          eff.conflicts ++ pass2Conf isTemp workExists canDelete lookup ls⟩) := by
  intro ls
  induction ls with
  | nil =>
    intro P A eff hinv
    simp [processLocal, pass2Sets, pass2Append, pass2Del, pass2Conf]
  | cons l rest ih =>
    intro P A eff hinv
    by_cases ht : isTemp l.getName
    · rw [processLocal, if_pos ht,
        show (P ++ A) ++ [RQFileEntry.localOnly l.getName l]
          = P ++ (A ++ [RQFileEntry.localOnly l.getName l]) from
          List.append_assoc P A _,
        ih P (A ++ [RQFileEntry.localOnly l.getName l]) eff hinv]
      simp [pass2Sets, ht, pass2Append, pass2Del, pass2Conf,
        List.filterMap_cons, List.append_assoc]
    · cases hl : assocFind lookup l.getName with
      | some j =>
        have hjP : j < P.length := hinv _ _ hl
        rw [processLocal, if_neg ht]
        simp only [hl]
        rw [List.set_append_left _ _ hjP,
          show RQFileEntry.localAndRemote l.path l
              (remoteFiles.getD ((assocFind rlook l.getName).getD 0) default)
            = mergedVal remoteFiles rlook l from rfl]
        have hinv2 : ∀ nm j0, assocFind lookup nm = some j0 →
            j0 < (P.set j (mergedVal remoteFiles rlook l)).length := by
          intro nm j0 h0
          rw [List.length_set]
          exact hinv _ _ h0
        rw [ih (P.set j (mergedVal remoteFiles rlook l)) A eff hinv2]
        simp [pass2Sets, ht, hl, pass2Append, pass2Del, pass2Conf,
          List.filterMap_cons, mergedVal]
      | none =>
        by_cases hw : workExists (getCreateFileName l.path)
        · rw [processLocal, if_neg ht]
          simp only [hl]
          rw [if_pos hw,
            show (P ++ A) ++ [RQFileEntry.localOnly l.path l]
              = P ++ (A ++ [RQFileEntry.localOnly l.path l]) from
              List.append_assoc P A _,
            ih P (A ++ [RQFileEntry.localOnly l.path l]) eff hinv]
          simp [pass2Sets, ht, hl, hw, pass2Append, pass2Del, pass2Conf,
            List.filterMap_cons, List.append_assoc]
        · by_cases hc : canDelete l.path
          · rw [processLocal, if_neg ht]
            simp only [hl]
            rw [if_neg hw, if_pos hc,
              ih P A
                { eff with
                  deletedLocal := eff.deletedLocal ++ [l.path],
                  deletedWork := eff.deletedWork ++ [l.path] } hinv]
            simp [pass2Sets, ht, hl, hw, hc, pass2Append, pass2Del, pass2Conf,
              List.filterMap_cons, List.append_assoc]
          · rw [processLocal, if_neg ht]
            simp only [hl]
            rw [if_neg hw, if_neg hc,
              show (P ++ A) ++ [RQFileEntry.localOnly l.path l]
                = P ++ (A ++ [RQFileEntry.localOnly l.path l]) from
                List.append_assoc P A _,
              ih P (A ++ [RQFileEntry.localOnly l.path l])
                { eff with conflicts := eff.conflicts ++ [l.path] } hinv]
            simp [pass2Sets, ht, hl, hw, hc, pass2Append, pass2Del, pass2Conf,
              List.filterMap_cons, List.append_assoc]

theorem pass2Sets_length (isTemp : String → Bool) (remoteFiles : List FileInfo)
    (lookup rlook : List (String × Nat)) :
    ∀ (ls : List FileInfo) (P : List RQFileEntry),
    (pass2Sets isTemp remoteFiles lookup rlook ls P).length = P.length := by
  intro ls
  induction ls with
  | nil => intro P; simp [pass2Sets]
  | cons l rest ih =>
    intro P
    by_cases ht : isTemp l.getName
    · simp [pass2Sets, ht, ih]
    · cases hl : assocFind lookup l.getName with
      | some j => simp [pass2Sets, ht, hl, ih]
      | none => simp [pass2Sets, ht, hl, ih]

/-- The predicate singling out the local entry whose in-place update lands at
slot `j`. -/
def hitsSlot (isTemp : String → Bool) (lookup : List (String × Nat)) (j : Nat)
    (l : FileInfo) : Bool :=
  !isTemp l.getName && (assocFind lookup l.getName == some j)

theorem pass2Sets_getElem? (isTemp : String → Bool) (remoteFiles : List FileInfo)
    (lookup rlook : List (String × Nat))
    (hinj : ∀ nm1 nm2 j, assocFind lookup nm1 = some j →
      assocFind lookup nm2 = some j → nm1 = nm2) :
    ∀ (ls : List FileInfo), (ls.map FileInfo.getName).Nodup →
    ∀ (P : List RQFileEntry) (j : Nat),
    (∀ nm j0, assocFind lookup nm = some j0 → j0 < P.length) →
    (pass2Sets isTemp remoteFiles lookup rlook ls P)[j]?
      = match ls.find? (hitsSlot isTemp lookup j) with
        | some l => some (mergedVal remoteFiles rlook l)
        | none => P[j]? := by
  intro ls
  induction ls with
  | nil =>
    intro _ P j _
    simp [pass2Sets, List.find?]
  | cons l rest ih =>
    intro hnd P j hbound
    rw [List.map_cons, List.nodup_cons] at hnd
    by_cases ht : isTemp l.getName
    · have hpred : hitsSlot isTemp lookup j l = false := by
        simp [hitsSlot, ht]
      rw [show pass2Sets isTemp remoteFiles lookup rlook (l :: rest) P
          = pass2Sets isTemp remoteFiles lookup rlook rest P from by
          simp [pass2Sets, ht]]
      rw [ih hnd.2 P j hbound, List.find?_cons_of_neg _ (by simp [hpred])]
    · cases hl : assocFind lookup l.getName with
      | none =>
        have hpred : hitsSlot isTemp lookup j l = false := by
          simp [hitsSlot, ht, hl]
        rw [show pass2Sets isTemp remoteFiles lookup rlook (l :: rest) P
            = pass2Sets isTemp remoteFiles lookup rlook rest P from by
            simp [pass2Sets, ht, hl]]
        rw [ih hnd.2 P j hbound, List.find?_cons_of_neg _ (by simp [hpred])]
      | some j0 =>
        have hstep : pass2Sets isTemp remoteFiles lookup rlook (l :: rest) P
            = pass2Sets isTemp remoteFiles lookup rlook rest
                (P.set j0 (mergedVal remoteFiles rlook l)) := by
          simp [pass2Sets, ht, hl]
        have hbound2 : ∀ nm j1, assocFind lookup nm = some j1 →
            j1 < (P.set j0 (mergedVal remoteFiles rlook l)).length := by
          intro nm j1 h1
          rw [List.length_set]
          exact hbound _ _ h1
        rw [hstep, ih hnd.2 _ j hbound2]
        by_cases hjj : j0 = j
        · subst hjj
          have hpred : hitsSlot isTemp lookup j0 l = true := by
            simp [hitsSlot, ht, hl]
          rw [List.find?_cons_of_pos _ hpred]
          have hrest : rest.find? (hitsSlot isTemp lookup j0) = none := by
            rw [List.find?_eq_none]
            intro l1 hl1 hp1
            have hfind1 : assocFind lookup l1.getName = some j0 := by
              simp only [hitsSlot, Bool.and_eq_true, beq_iff_eq] at hp1
              exact hp1.2
            have hname : l1.getName = l.getName := hinj _ _ _ hfind1 hl
            exact hnd.1 (hname ▸ List.mem_map.2 ⟨l1, hl1, rfl⟩)
          rw [hrest]
          exact List.getElem?_set_self (hbound _ _ hl)
        · have hpred : hitsSlot isTemp lookup j l = false := by
            simp [hitsSlot, ht, hl, hjj]
          rw [List.find?_cons_of_neg _ (by simp [hpred])]
          cases hfr : rest.find? (hitsSlot isTemp lookup j) with
          | some l1 => rfl
          | none => exact List.getElem?_set_ne hjj

theorem find?_congr_mem {α : Type} {p q : α → Bool} :
    ∀ {l : List α}, (∀ x ∈ l, p x = q x) → l.find? p = l.find? q := by
  intro l
  induction l with
  | nil => intro _; rfl
  | cons a rest ih =>
    intro h
    cases ha : p a with
    | true =>
      rw [List.find?_cons_of_pos _ ha,
        List.find?_cons_of_pos _ (by rw [← h a (List.mem_cons_self a rest), ha])]
    | false =>
      rw [List.find?_cons_of_neg _ (by simp [ha]),
        List.find?_cons_of_neg _
          (by rw [← h a (List.mem_cons_self a rest), ha]; simp),
        ih (fun x hx => h x (List.mem_cons_of_mem a hx))]

/-- Whether a surviving remote entry carries the given basename. -/
def survivorNamed (requests : List (String × String))
    (remoteFiles : List FileInfo) (name : String) : Bool :=
  (survivors requests remoteFiles).any (fun r => r.getName == name)

theorem lookup_none_iff (requests : List (String × String))
    (remoteFiles : List FileInfo)
    (hR : (remoteFiles.map FileInfo.getName).Nodup) (nm : String) :
    assocFind (pass1Lookup requests remoteFiles 0) nm = none ↔
      survivorNamed requests remoteFiles nm = false := by
  constructor
  · intro h
    rw [Bool.eq_false_iff]
    intro hany
    obtain ⟨r, hrmem, hrname⟩ := List.any_eq_true.1 hany
    obtain ⟨k, hklt, hkr⟩ := List.mem_iff_getElem.1 hrmem
    have : assocFind (pass1Lookup requests remoteFiles 0) nm = some k := by
      rw [lookup_iff requests remoteFiles hR]
      exact ⟨r, by rw [List.getElem?_eq_some_iff]; exact ⟨hklt, hkr⟩,
        by simpa using hrname⟩
    rw [h] at this
    cases this
  · intro h
    cases hfd : assocFind (pass1Lookup requests remoteFiles 0) nm with
    | none => rfl
    | some j =>
      obtain ⟨r, hj, hname⟩ := (lookup_iff requests remoteFiles hR nm j).1 hfd
      have hrmem : r ∈ survivors requests remoteFiles := List.getElem?_mem hj
      have : survivorNamed requests remoteFiles nm = true :=
        List.any_eq_true.2 ⟨r, hrmem, by simp [hname]⟩
      rw [h] at this
      cases this

/-- The local entry, if any, that the merge pairs with a surviving remote
entry of the given basename: the first non-temp local entry whose basename
is exactly (stringwise) equal to it. -/
def localMatch (isTemp : String → Bool) (localFiles : List FileInfo)
    (name : String) : Option FileInfo :=
  localFiles.find? (fun l => !isTemp l.getName && (l.getName == name))

/-- The remote block of the merged listing: the surviving remote entries in
their remote order, each replaced in place by a merged local-and-remote
overlay file when a non-temp local entry carries exactly the same basename. -/
def mergedRemoteSpec (isTemp : String → Bool)
    (requests : List (String × String))
    (remoteFiles localFiles : List FileInfo) : List RQFileEntry :=
  (survivors requests remoteFiles).map (fun r =>
    match localMatch isTemp localFiles r.getName with
    | some l => .localAndRemote l.path l r
    | none => .remoteOnly r.path r)

/-- The local block of the merged listing, in local-listing order: temp
files, client-created files (with a creation marker) and unresolved orphans
(no marker, `canDelete` false), all as local-only overlay files. -/
def appendedLocalSpec (isTemp workExists canDelete : String → Bool)
    (requests : List (String × String))
    (remoteFiles localFiles : List FileInfo) : List RQFileEntry :=
  localFiles.filterMap (fun l =>
    if isTemp l.getName then some (.localOnly l.getName l)
    else if survivorNamed requests remoteFiles l.getName then none
    else if workExists (getCreateFileName l.path) then some (.localOnly l.path l)
    else if canDelete l.path then none
    else some (.localOnly l.path l))

/-- The local paths the orphan branch deletes (from both L and W): non-temp
entries without a surviving remote namesake, without a creation marker, for
which `canDelete` holds. -/
def orphanDeletedSpec (isTemp workExists canDelete : String → Bool)
    (requests : List (String × String))
    (remoteFiles localFiles : List FileInfo) : List String :=
  localFiles.filterMap (fun l =>
    if isTemp l.getName then none
    else if survivorNamed requests remoteFiles l.getName then none
    else if workExists (getCreateFileName l.path) then none
    else if canDelete l.path then some l.path
    else none)

/-- The local paths the merge reports in conflict: like the orphan branch
but with `canDelete` false. -/
def conflictsSpec (isTemp workExists canDelete : String → Bool)
    (requests : List (String × String))
    (remoteFiles localFiles : List FileInfo) : List String :=
  localFiles.filterMap (fun l =>
    if isTemp l.getName then none
    else if survivorNamed requests remoteFiles l.getName then none
    else if workExists (getCreateFileName l.path) then none
    else if canDelete l.path then none
    else some l.path)

theorem pass2Sets_bridge (isTemp : String → Bool)
    (requests : List (String × String)) (remoteFiles localFiles : List FileInfo)
    (hR : (remoteFiles.map FileInfo.getName).Nodup)
    (hL : (localFiles.map FileInfo.getName).Nodup) :
    pass2Sets isTemp remoteFiles (pass1Lookup requests remoteFiles 0)
        (pass1RLook requests remoteFiles 0) localFiles
        (mergeBase requests remoteFiles)
      = mergedRemoteSpec isTemp requests remoteFiles localFiles := by
  have hinj := lookup_inj requests remoteFiles hR
  have hbound : ∀ nm j0,
      assocFind (pass1Lookup requests remoteFiles 0) nm = some j0 →
      j0 < (mergeBase requests remoteFiles).length := by
    intro nm j0 h0
    rw [mergeBase, List.length_map]
    exact lookup_lt requests remoteFiles hR nm j0 h0
  apply List.ext_getElem?
  intro j
  rw [pass2Sets_getElem? isTemp remoteFiles _ _
    (fun nm1 nm2 j0 => hinj nm1 nm2 j0) localFiles hL
    (mergeBase requests remoteFiles) j hbound]
  cases hs : (survivors requests remoteFiles)[j]? with
  | none =>
    have hlen : (survivors requests remoteFiles).length ≤ j :=
      List.getElem?_eq_none_iff.1 hs
    have hfind : localFiles.find?
        (hitsSlot isTemp (pass1Lookup requests remoteFiles 0) j) = none := by
      rw [List.find?_eq_none]
      intro l _ hp
      simp only [hitsSlot, Bool.and_eq_true, beq_iff_eq] at hp
      have := lookup_lt requests remoteFiles hR l.getName j hp.2
      omega
    rw [hfind]
    simp [mergeBase, mergedRemoteSpec, List.getElem?_map, hs]
  | some r =>
    have hpred : ∀ l ∈ localFiles,
        hitsSlot isTemp (pass1Lookup requests remoteFiles 0) j l
          = (!isTemp l.getName && (l.getName == r.getName)) := by
      intro l _
      simp only [hitsSlot]
      by_cases hbn : l.getName = r.getName
      · have : assocFind (pass1Lookup requests remoteFiles 0) l.getName
            = some j := by
          rw [lookup_iff requests remoteFiles hR]
          exact ⟨r, hs, hbn.symm⟩
        rw [this, hbn]
        simp
      · have hne : assocFind (pass1Lookup requests remoteFiles 0) l.getName
            ≠ some j := by
          intro hsome
          obtain ⟨r1, hj1, hn1⟩ :=
            (lookup_iff requests remoteFiles hR _ _).1 hsome
          rw [hs] at hj1
          injection hj1 with hj1
          subst hj1
          exact hbn hn1.symm
        rw [show (assocFind (pass1Lookup requests remoteFiles 0) l.getName
              == some j) = false from beq_eq_false_iff_ne.2 hne,
          show (l.getName == r.getName) = false from beq_eq_false_iff_ne.2 hbn]
    rw [find?_congr_mem hpred]
    cases hlm : localMatch isTemp localFiles r.getName with
    | some l =>
      rw [show localFiles.find?
            (fun l => !isTemp l.getName && (l.getName == r.getName))
          = some l from hlm]
      have hp := List.find?_some hlm
      simp only [Bool.and_eq_true, beq_iff_eq] at hp
      have hfind : assocFind (pass1Lookup requests remoteFiles 0) l.getName
          = some j := by
        rw [lookup_iff requests remoteFiles hR]
        exact ⟨r, hs, hp.2.symm⟩
      have hval := rlook_val requests remoteFiles hR l.getName j r hfind hs
      rw [List.getD_eq_getElem?_getD] at hval
      simp [mergedRemoteSpec, List.getElem?_map, hs, hlm, mergedVal, hval]
    | none =>
      rw [show localFiles.find?
            (fun l => !isTemp l.getName && (l.getName == r.getName))
          = none from hlm]
      simp [mergedRemoteSpec, mergeBase, List.getElem?_map, hs, hlm]

theorem pass2Append_bridge (isTemp workExists canDelete : String → Bool)
    (requests : List (String × String)) (remoteFiles localFiles : List FileInfo)
    (hR : (remoteFiles.map FileInfo.getName).Nodup) :
    pass2Append isTemp workExists canDelete (pass1Lookup requests remoteFiles 0)
        localFiles
      = appendedLocalSpec isTemp workExists canDelete requests remoteFiles
          localFiles := by
  apply List.filterMap_congr
  intro l _
  by_cases ht : isTemp l.getName
  · simp [ht]
  · cases hl : assocFind (pass1Lookup requests remoteFiles 0) l.getName with
    | some j =>
      have hsv : survivorNamed requests remoteFiles l.getName = true := by
        obtain ⟨r, hj, hn⟩ := (lookup_iff requests remoteFiles hR _ _).1 hl
        exact List.any_eq_true.2 ⟨r, List.getElem?_mem hj, by simp [hn]⟩
      simp [ht, hl, hsv]
    | none =>
      have hsv : survivorNamed requests remoteFiles l.getName = false :=
        (lookup_none_iff requests remoteFiles hR _).1 hl
      simp [ht, hl, hsv]

theorem pass2Del_bridge (isTemp workExists canDelete : String → Bool)
    (requests : List (String × String)) (remoteFiles localFiles : List FileInfo)
    (hR : (remoteFiles.map FileInfo.getName).Nodup) :
    pass2Del isTemp workExists canDelete (pass1Lookup requests remoteFiles 0)
        localFiles
      = orphanDeletedSpec isTemp workExists canDelete requests remoteFiles
          localFiles := by
  apply List.filterMap_congr
  intro l _
  by_cases ht : isTemp l.getName
  · simp [ht]
  · cases hl : assocFind (pass1Lookup requests remoteFiles 0) l.getName with
    | some j =>
      have hsv : survivorNamed requests remoteFiles l.getName = true := by
        obtain ⟨r, hj, hn⟩ := (lookup_iff requests remoteFiles hR _ _).1 hl
        exact List.any_eq_true.2 ⟨r, List.getElem?_mem hj, by simp [hn]⟩
      simp [ht, hl, hsv]
    | none =>
      have hsv : survivorNamed requests remoteFiles l.getName = false :=
        (lookup_none_iff requests remoteFiles hR _).1 hl
      simp [ht, hl, hsv]

theorem pass2Conf_bridge (isTemp workExists canDelete : String → Bool)
    (requests : List (String × String)) (remoteFiles localFiles : List FileInfo)
    (hR : (remoteFiles.map FileInfo.getName).Nodup) :
    pass2Conf isTemp workExists canDelete (pass1Lookup requests remoteFiles 0)
        localFiles
      = conflictsSpec isTemp workExists canDelete requests remoteFiles
          localFiles := by
  apply List.filterMap_congr
  intro l _
  by_cases ht : isTemp l.getName
  · simp [ht]
  · cases hl : assocFind (pass1Lookup requests remoteFiles 0) l.getName with
    | some j =>
      have hsv : survivorNamed requests remoteFiles l.getName = true := by
        obtain ⟨r, hj, hn⟩ := (lookup_iff requests remoteFiles hR _ _).1 hl
        exact List.any_eq_true.2 ⟨r, List.getElem?_mem hj, by simp [hn]⟩
      simp [ht, hl, hsv]
    | none =>
      have hsv : survivorNamed requests remoteFiles l.getName = false :=
        (lookup_none_iff requests remoteFiles hR _).1 hl
      simp [ht, hl, hsv]

/-- The merge equals its declarative description: the surviving remote
entries in order, merged in place with their exact-basename local
namesakes, followed by the local-only entries in local order; the effects
are the orphan deletions and conflicts.  The two listings are assumed to
carry pairwise distinct basenames, as directory listings do. -/
theorem rqMerge_eq_spec (isTemp workExists canDelete : String → Bool)
    (requests : List (String × String)) (remoteFiles localFiles : List FileInfo)
    (hR : (remoteFiles.map FileInfo.getName).Nodup)
    (hL : (localFiles.map FileInfo.getName).Nodup) :
    rqMerge isTemp workExists canDelete requests remoteFiles localFiles
      = (mergedRemoteSpec isTemp requests remoteFiles localFiles
          ++ appendedLocalSpec isTemp workExists canDelete requests remoteFiles
              localFiles,
         ⟨orphanDeletedSpec isTemp workExists canDelete requests remoteFiles
            localFiles,
          orphanDeletedSpec isTemp workExists canDelete requests remoteFiles
            localFiles,
          conflictsSpec isTemp workExists canDelete requests remoteFiles
            localFiles⟩) := by
  rw [rqMerge, remotePass_closed]
  simp only [List.append_nil, List.nil_append, List.length_nil]
  rw [show (survivors requests remoteFiles).map
        (fun r => RQFileEntry.remoteOnly r.path r)
      = mergeBase requests remoteFiles ++ ([] : List RQFileEntry) from by
      simp [mergeBase]]
  rw [processLocal_split isTemp workExists canDelete remoteFiles
    (pass1Lookup requests remoteFiles 0) (pass1RLook requests remoteFiles 0)
    localFiles (mergeBase requests remoteFiles) [] ⟨[], [], []⟩
    (by
      intro nm j0 h0
      rw [mergeBase, List.length_map]
      exact lookup_lt requests remoteFiles hR nm j0 h0)]
  rw [pass2Sets_bridge isTemp requests remoteFiles localFiles hR hL,
    pass2Append_bridge isTemp workExists canDelete requests remoteFiles
      localFiles hR,
    pass2Del_bridge isTemp workExists canDelete requests remoteFiles
      localFiles hR,
    pass2Conf_bridge isTemp workExists canDelete requests remoteFiles
      localFiles hR]
  simp

/-- C5: for every name contained in neither the remote tree nor the local
tree, `open` fails with a NotFound error (rq/tree.js lines 131-171; the
local-open failure is modelled from the spec since file.js is not under
src/). -/
theorem C5_open_both_absent_notfound (localFiles : List FileInfo)
    (name : String) (remoteHandle : FileInfo)
    (h : ∀ f ∈ localFiles, f.path ≠ name) :
    RQTree.open localFiles false name remoteHandle
      = .error .notFound := by
  have hfind : localFiles.find? (fun f => f.path == name) = none := by
    rw [List.find?_eq_none]
    intro f hf
    simp [h f hf]
  simp [RQTree.open, localOpen, hfind]

theorem C5_open_both_absent_notfound_witness :
    RQTree.open [{ path := "/a/other.txt", isDir := false }] false "/a/x.txt"
        { path := "/a/x.txt", isDir := false }
      = .error .notFound :=
  C5_open_both_absent_notfound _ _ _ (by decide)

/-- C7: immediately after a successful `createFile(name)`, the local tree
contains the name, the work tree contains the `<name>.rqcf` marker, the
in-memory `createdFiles` set contains the name, the returned overlay file is
backed only by the new local handle, and the queue is untouched
(rq/tree.js lines 343-361). -/
theorem C7_createFile_effects (name : String) (s : TreeState)
    (h1 : localExistsB s name = false)
    (h2 : s.workFiles.contains (getCreateFileName name) = false) :
    ∃ s2, RQTree.createFile name s
        = .ok (s2, .localOnly name { path := name, isDir := false }) ∧
      localExistsB s2 name = true ∧
      getCreateFileName name ∈ s2.workFiles ∧
      name ∈ s2.createdFiles ∧
      s2.queue = s.queue := by
  refine ⟨{ s with
      localFiles := s.localFiles ++ [{ path := name, isDir := false }],
      workFiles := s.workFiles ++ [getCreateFileName name],
      createdFiles := s.createdFiles ++ [name] }, ?_, ?_, ?_, ?_, ?_⟩
  · have h2m : getCreateFileName name ∉ s.workFiles := by
      intro hm
      have hc : s.workFiles.contains (getCreateFileName name) = true :=
        List.elem_iff.2 hm
      rw [h2] at hc
      cases hc
    rw [RQTree.createFile, if_neg (by simp [h1]), if_neg (by simpa using h2m)]
  · simp [localExistsB, List.any_append]
  · simp
  · simp
  · rfl

theorem C7_createFile_effects_witness :
    ∃ s2, RQTree.createFile "/a/x.txt"
        { localFiles := [{ path := "/a", isDir := true }], workFiles := [],
          queue := [], createdFiles := [] }
        = .ok (s2, .localOnly "/a/x.txt" { path := "/a/x.txt", isDir := false }) ∧
      localExistsB s2 "/a/x.txt" = true ∧
      getCreateFileName "/a/x.txt" ∈ s2.workFiles ∧
      "/a/x.txt" ∈ s2.createdFiles ∧
      s2.queue = [] :=
  C7_createFile_effects "/a/x.txt" _ (by decide) (by decide)

/-- C9: a failure of the durable queue during an enqueue (the `queueRequest`
callback of `queueData`, rq/tree.js lines 319-323) is only logged: the
client-facing callback of `delete` and of `rename` receives no error, and
its value does not depend on the queue result. -/
theorem C9_enqueue_error_swallowed :
    (∀ (isTemp : String → Bool) (cfg : ShareConfig) (qres : Except QErr Unit)
        (name : String) (s : TreeState),
      (RQTree.delete isTemp cfg qres name s).cbErr = none) ∧
    (∀ (isTemp : String → Bool) (cfg : ShareConfig) (qres : Except QErr Unit)
        (oldName newName : String) (s : TreeState),
      ((RQTree.rename isTemp cfg qres oldName newName s).1).cbErr
          = ((RQTree.rename isTemp cfg (.ok ()) oldName newName s).1).cbErr ∧
      ((RQTree.rename isTemp cfg qres oldName newName s).1).cbErr = none) := by
  constructor
  · intro isTemp cfg qres name s
    by_cases h : localExistsB s name <;> simp [RQTree.delete, h]
  · intro isTemp cfg qres oldName newName s
    constructor
    · by_cases h : localExistsB s oldName
      · simp only [RQTree.rename, h, if_true]
        split <;> rfl
      · simp [RQTree.rename, h]
    · by_cases h : localExistsB s oldName
      · simp only [RQTree.rename, h, if_true]
        split <;> rfl
      · simp [RQTree.rename, h]

/-- C10 counterexample: an execution in which `rq.getRequests` reports an
error and yet `list` returns a result.  With an empty remote listing the
remote loop body never runs, `requests` is never indexed, and the merge
completes, returning the (empty) merged listing. -/
theorem C10_counterexample :
    RQTree.list (fun _ => false) (fun _ => false) (fun _ => false)
        (.ok []) (.ok true) (.ok []) (.error { msg := "queue failure" })
      = .merged [] { deletedLocal := [], deletedWork := [], conflicts := [] } := by
  decide

/-- C10 as amended: `list` never inspects the error argument of
`rq.getRequests`; when the call errs and the remote listing is nonempty
(with the parent cached locally and the local listing available), the merge
indexes into the undefined requests mapping and the callback chain crashes,
returning neither an error nor a result; when the remote listing is empty
the error is silently ignored and the merge returns a result as if no
requests were pending.  In no case is a Queue error reported. -/
theorem C10_requests_error_behavior (isTemp workExists canDelete : String → Bool)
    (remoteFiles localFiles : List FileInfo) (e : QErr) :
    (remoteFiles ≠ [] →
      RQTree.list isTemp workExists canDelete (.ok remoteFiles) (.ok true)
          (.ok localFiles) (.error e) = .crash) ∧
    (remoteFiles = [] →
      RQTree.list isTemp workExists canDelete (.ok remoteFiles) (.ok true)
          (.ok localFiles) (.error e)
        = match rqMerge isTemp workExists canDelete [] remoteFiles localFiles with
          | (files, eff) => .merged files eff) ∧
    (∀ e1, RQTree.list isTemp workExists canDelete (.ok remoteFiles) (.ok true)
        (.ok localFiles) (.error e) ≠ .fail e1) := by
  refine ⟨?_, ?_, ?_⟩
  · intro hne
    simp [RQTree.list, List.isEmpty_iff, hne]
  · intro hempty
    subst hempty
    simp [RQTree.list, List.isEmpty_iff]
  · intro e1
    by_cases hne : remoteFiles = []
    · subst hne
      simp [RQTree.list, List.isEmpty_iff]
    · simp [RQTree.list, List.isEmpty_iff, hne]

theorem C10_requests_error_behavior_witness :
    RQTree.list (fun _ => false) (fun _ => false) (fun _ => false)
        (.ok [{ path := "/a/x.txt", isDir := false }]) (.ok true)
        (.ok []) (.error { msg := "queue failure" }) = .crash :=
  (C10_requests_error_behavior (fun _ => false) (fun _ => false) (fun _ => false)
    [{ path := "/a/x.txt", isDir := false }] [] { msg := "queue failure" }).1
    (by decide)

/-- C2 counterexample: `queueData` with a non-temp source and a temp MOVE
destination produces a queue entry whose `destPath` matches the temp
pattern, contradicting the claim that no queue entry is ever produced whose
`destPath` matches the temp pattern (rq/tree.js lines 314-317: for a MOVE
the skip condition requires both sides to be temp). -/
theorem C2_counterexample :
    RQTree.queueData tempName
        { remoteRoot := "http://remote/api/", localRoot := "/local" }
        "/a/x.txt" "MOVE" (some "/a/~y.tmp")
      = some { method := "MOVE", path := "/a/x.txt",
               destPath := some "/a/~y.tmp",
               remotePrefix := "http://remote/api/", localPrefix := "/local" } ∧
    tempName "/a/~y.tmp" = true := by
  constructor
  · decide
  · decide

/-- C2 as amended: a mutation is skipped by `queueData` exactly when the
source name is temp and, for MOVE, the destination is also temp.  Hence
`delete` (and any destination-less `queueData`) on a temp name produces no
entry, a produced entry always carries `path = name` and
`destPath = destName`, and a MOVE with exactly one temp side is enqueued
and carries a temp `path` or a temp `destPath`. -/
theorem C2_temp_skip (isTemp : String → Bool) (cfg : ShareConfig)
    (name method : String) (newName : Option String) :
    (RQTree.queueData isTemp cfg name method newName = none ↔
      (isTemp name && newName.all isTemp) = true) ∧
    (∀ e, RQTree.queueData isTemp cfg name method newName = some e →
      e.path = name ∧ e.destPath = newName) ∧
    (∀ (qres : Except QErr Unit) (s : TreeState), isTemp name = true →
      ((RQTree.delete isTemp cfg qres name s).state).queue = s.queue) := by
  refine ⟨?_, ?_, ?_⟩
  · cases newName with
    | none =>
      by_cases h : isTemp name = true
      · simp [RQTree.queueData, h]
      · simp [RQTree.queueData, Bool.not_eq_true _ ▸ h]
    | some d =>
      by_cases h : isTemp name = true
      · by_cases hd : isTemp d = true
        · simp [RQTree.queueData, h, hd]
        · simp [RQTree.queueData, h, Bool.eq_false_iff.2 hd]
      · simp [RQTree.queueData, Bool.eq_false_iff.2 h]
  · intro e he
    cases newName with
    | none =>
      by_cases h : isTemp name = true
      · simp [RQTree.queueData, h] at he
      · simp [RQTree.queueData, Bool.eq_false_iff.2 h] at he
        rw [← he]
        exact ⟨rfl, rfl⟩
    | some d =>
      by_cases h : (isTemp name && isTemp d) = true
      · simp [RQTree.queueData, h] at he
      · simp [RQTree.queueData, Bool.eq_false_iff.2 h] at he
        rw [← he]
        exact ⟨rfl, rfl⟩
  · intro qres s h
    by_cases hex : localExistsB s name
    · simp [RQTree.delete, hex, RQTree.queueDataApply, RQTree.queueData, h]
    · simp [RQTree.delete, hex]

theorem C2_temp_skip_witness :
    ({ method := "MOVE", path := "/a/x.txt", destPath := some "/a/~y.tmp",
       remotePrefix := "http://remote/api/",
       localPrefix := "/local" } : QueueEntry).path = "/a/x.txt" ∧
    ({ method := "MOVE", path := "/a/x.txt", destPath := some "/a/~y.tmp",
       remotePrefix := "http://remote/api/",
       localPrefix := "/local" } : QueueEntry).destPath = some "/a/~y.tmp" :=
  (C2_temp_skip tempName
    { remoteRoot := "http://remote/api/", localRoot := "/local" }
    "/a/x.txt" "MOVE" (some "/a/~y.tmp")).2.1 _ (by decide)

/-- C1 counterexample: a local name and a remote name that are NFKD-equal
but not stringwise equal (decomposed versus precomposed accent) are not
merged by `list`: the merge emits the remote entry as remote-only and the
local entry separately as local-only (here with a creation marker present),
instead of one merged entry using the local path. -/
theorem C1_counterexample :
    unicodeEquals "cafe\u0301" "caf\u00E9" = true ∧
    (rqMerge (fun _ => false) (fun _ => true) (fun _ => false) []
        [{ path := "/a/caf\u00E9", isDir := false }]
        [{ path := "/a/cafe\u0301", isDir := false }]).1
      = [.remoteOnly "/a/caf\u00E9" { path := "/a/caf\u00E9", isDir := false },
         .localOnly "/a/cafe\u0301" { path := "/a/cafe\u0301", isDir := false }] := by
  constructor
  · decide
  · decide

theorem appendedLocalSpec_shape (isTemp workExists canDelete : String → Bool)
    (requests : List (String × String))
    (remoteFiles localFiles : List FileInfo) :
    ∀ e ∈ appendedLocalSpec isTemp workExists canDelete requests remoteFiles
        localFiles, ∃ p0 l0, e = .localOnly p0 l0 := by
  intro e he
  obtain ⟨l0, _, heq⟩ := List.mem_filterMap.1 he
  by_cases h1 : isTemp l0.getName
  · rw [if_pos h1] at heq
    injection heq with heq
    exact ⟨_, _, heq.symm⟩
  · rw [if_neg h1] at heq
    by_cases h2 : survivorNamed requests remoteFiles l0.getName
    · rw [if_pos h2] at heq
      cases heq
    · rw [if_neg h2] at heq
      by_cases h3 : workExists (getCreateFileName l0.path)
      · rw [if_pos h3] at heq
        injection heq with heq
        exact ⟨_, _, heq.symm⟩
      · rw [if_neg h3] at heq
        by_cases h4 : canDelete l0.path
        · rw [if_pos h4] at heq
          cases heq
        · rw [if_neg h4] at heq
          injection heq with heq
          exact ⟨_, _, heq.symm⟩

/-- C1 as amended: NFKD-normalized comparison is used only by the local
tree when filtering directory entries against a non-wildcard pattern
(fs/tree.js line 118); in the merge of `list` (rq/tree.js lines 203-233)
local and remote entries are paired by exact string equality of basenames,
so every merged local-and-remote overlay file pairs a local and a remote
entry whose basenames are stringwise equal. -/
theorem C1_exact_name_matching :
    (∀ (files : List String) (pattern n : String),
      n ∈ files → unicodeEquals n pattern = true →
      n ∈ matchingNames files pattern) ∧
    (∀ (isTemp workExists canDelete : String → Bool)
        (requests : List (String × String))
        (remoteFiles localFiles : List FileInfo),
      (remoteFiles.map FileInfo.getName).Nodup →
      (localFiles.map FileInfo.getName).Nodup →
      ∀ p l r, RQFileEntry.localAndRemote p l r
          ∈ (rqMerge isTemp workExists canDelete requests remoteFiles
              localFiles).1 →
        FileInfo.getName l = FileInfo.getName r) := by
  constructor
  · intro files pattern n hn hu
    rw [matchingNames]
    by_cases hp : pattern == "*"
    · rw [if_pos hp]
      exact hn
    · rw [if_neg hp]
      exact List.mem_filter.2 ⟨hn, hu⟩
  · intro isTemp workExists canDelete requests remoteFiles localFiles hR hL
      p l r hmem
    rw [rqMerge_eq_spec isTemp workExists canDelete requests remoteFiles
      localFiles hR hL] at hmem
    simp only at hmem
    rcases List.mem_append.1 hmem with hm | hm
    · obtain ⟨r0, _, heq⟩ := List.mem_map.1 hm
      cases hlm : localMatch isTemp localFiles (FileInfo.getName r0) with
      | some l0 =>
        rw [hlm] at heq
        injection heq with h1 h2 h3
        subst h2
        subst h3
        have hp0 := List.find?_some hlm
        simp only [Bool.and_eq_true, beq_iff_eq] at hp0
        exact hp0.2
      | none =>
        rw [hlm] at heq
        cases heq
    · obtain ⟨p0, l0, heq⟩ :=
        appendedLocalSpec_shape isTemp workExists canDelete requests
          remoteFiles localFiles _ hm
      cases heq

theorem C1_exact_name_matching_witness :
    "caf\u00E9" ∈ matchingNames ["caf\u00E9"] "cafe\u0301" ∧
    FileInfo.getName { path := "/a/b.txt", isDir := false }
      = FileInfo.getName { path := "/a/b.txt", isDir := false } :=
  ⟨C1_exact_name_matching.1 ["caf\u00E9"] "cafe\u0301" "caf\u00E9"
      (by decide) (by decide),
   C1_exact_name_matching.2 (fun _ => false) (fun _ => false) (fun _ => false)
      [] [{ path := "/a/b.txt", isDir := false }]
      [{ path := "/a/b.txt", isDir := false }] (by decide) (by decide)
      "/a/b.txt" { path := "/a/b.txt", isDir := false }
      { path := "/a/b.txt", isDir := false } (by decide)⟩

/-- C6: the merged listing preserves the relative order of the surviving
remote entries, with each entry carrying a basename also present locally
replaced in place by its merged local-and-remote form, and the local-only
entries (temp, client-created, unresolved orphans) appended after them in
local-listing order (rq/tree.js lines 199-287; the two listings carry
pairwise distinct basenames, as directory listings do). -/
theorem C6_ordering (isTemp workExists canDelete : String → Bool)
    (requests : List (String × String)) (remoteFiles localFiles : List FileInfo)
    (hR : (remoteFiles.map FileInfo.getName).Nodup)
    (hL : (localFiles.map FileInfo.getName).Nodup) :
    (rqMerge isTemp workExists canDelete requests remoteFiles localFiles).1
      = mergedRemoteSpec isTemp requests remoteFiles localFiles
        ++ appendedLocalSpec isTemp workExists canDelete requests remoteFiles
            localFiles := by
  rw [rqMerge_eq_spec isTemp workExists canDelete requests remoteFiles
    localFiles hR hL]

theorem C6_ordering_witness :
    (rqMerge tempName (fun _ => true) (fun _ => false)
        [("gone.txt", "DELETE")]
        [{ path := "/a/b.txt", isDir := false },
         { path := "/a/gone.txt", isDir := false },
         { path := "/a/c.txt", isDir := false }]
        [{ path := "/a/c.txt", isDir := false },
         { path := "/a/~t.tmp", isDir := false },
         { path := "/a/new.txt", isDir := false }]).1
      = mergedRemoteSpec tempName [("gone.txt", "DELETE")]
          [{ path := "/a/b.txt", isDir := false },
           { path := "/a/gone.txt", isDir := false },
           { path := "/a/c.txt", isDir := false }]
          [{ path := "/a/c.txt", isDir := false },
           { path := "/a/~t.tmp", isDir := false },
           { path := "/a/new.txt", isDir := false }]
        ++ appendedLocalSpec tempName (fun _ => true) (fun _ => false)
            [("gone.txt", "DELETE")]
            [{ path := "/a/b.txt", isDir := false },
             { path := "/a/gone.txt", isDir := false },
             { path := "/a/c.txt", isDir := false }]
            [{ path := "/a/c.txt", isDir := false },
             { path := "/a/~t.tmp", isDir := false },
             { path := "/a/new.txt", isDir := false }] :=
  C6_ordering tempName (fun _ => true) (fun _ => false) [("gone.txt", "DELETE")]
    [{ path := "/a/b.txt", isDir := false },
     { path := "/a/gone.txt", isDir := false },
     { path := "/a/c.txt", isDir := false }]
    [{ path := "/a/c.txt", isDir := false },
     { path := "/a/~t.tmp", isDir := false },
     { path := "/a/new.txt", isDir := false }] (by decide) (by decide)

/-- C4: during the merge, a non-temp local file absent from the entire
remote listing and without a creation marker is deleted from L (along with
its work-tree sidecars) exactly when `canDelete` holds, and is then left
out of the output; when `canDelete` is false the file is kept, appears in
the output as a local-only entry, and is reported in conflict
(rq/tree.js lines 239-281). -/
theorem C4_orphan_safety (isTemp workExists canDelete : String → Bool)
    (requests : List (String × String)) (remoteFiles localFiles : List FileInfo)
    (l : FileInfo)
    (hR : (remoteFiles.map FileInfo.getName).Nodup)
    (hL : (localFiles.map FileInfo.getName).Nodup)
    (hmem : l ∈ localFiles)
    (ht : isTemp l.getName = false)
    (hnor : ∀ r ∈ remoteFiles, FileInfo.getName r ≠ FileInfo.getName l)
    (hw : workExists (getCreateFileName l.path) = false) :
    (canDelete l.path = true →
      l.path ∈ (rqMerge isTemp workExists canDelete requests remoteFiles
          localFiles).2.deletedLocal ∧
      l.path ∈ (rqMerge isTemp workExists canDelete requests remoteFiles
          localFiles).2.deletedWork ∧
      ∀ e ∈ (rqMerge isTemp workExists canDelete requests remoteFiles
          localFiles).1, entryLocal e ≠ some l) ∧
    (canDelete l.path = false →
      RQFileEntry.localOnly l.path l
          ∈ (rqMerge isTemp workExists canDelete requests remoteFiles
              localFiles).1 ∧
      l.path ∈ (rqMerge isTemp workExists canDelete requests remoteFiles
          localFiles).2.conflicts ∧
      l.path ∉ (rqMerge isTemp workExists canDelete requests remoteFiles
          localFiles).2.deletedLocal) := by
  have hsv : survivorNamed requests remoteFiles l.getName = false := by
    rw [survivorNamed]
    rw [Bool.eq_false_iff]
    intro hany
    obtain ⟨r, hrmem, hrname⟩ := List.any_eq_true.1 hany
    exact hnor r (List.mem_filter.1 hrmem).1 (by simpa using hrname)
  rw [rqMerge_eq_spec isTemp workExists canDelete requests remoteFiles
    localFiles hR hL]
  simp only
  constructor
  · intro hc
    refine ⟨?_, ?_, ?_⟩
    · exact List.mem_filterMap.2 ⟨l, hmem, by
        rw [if_neg (by simp [ht]), if_neg (by simp [hsv]),
          if_neg (by simp [hw]), if_pos hc]⟩
    · exact List.mem_filterMap.2 ⟨l, hmem, by
        rw [if_neg (by simp [ht]), if_neg (by simp [hsv]),
          if_neg (by simp [hw]), if_pos hc]⟩
    · intro e he
      rcases List.mem_append.1 he with hm | hm
      · obtain ⟨r0, hr0, heq⟩ := List.mem_map.1 hm
        cases hlm : localMatch isTemp localFiles (FileInfo.getName r0) with
        | some l0 =>
          rw [hlm] at heq
          rw [← heq]
          simp only [entryLocal, ne_eq, Option.some.injEq]
          intro hll
          subst hll
          have hp0 := List.find?_some hlm
          simp only [Bool.and_eq_true, beq_iff_eq] at hp0
          exact hnor r0 (List.mem_filter.1 hr0).1 hp0.2.symm
        | none =>
          rw [hlm] at heq
          rw [← heq]
          simp [entryLocal]
      · obtain ⟨l0, hl0, heq⟩ := List.mem_filterMap.1 hm
        by_cases h1 : isTemp l0.getName
        · rw [if_pos h1] at heq
          injection heq with heq
          rw [← heq]
          simp only [entryLocal, ne_eq, Option.some.injEq]
          intro hll
          subst hll
          rw [ht] at h1
          cases h1
        · rw [if_neg h1] at heq
          by_cases h2 : survivorNamed requests remoteFiles l0.getName
          · rw [if_pos h2] at heq
            cases heq
          · rw [if_neg h2] at heq
            by_cases h3 : workExists (getCreateFileName l0.path)
            · rw [if_pos h3] at heq
              injection heq with heq
              rw [← heq]
              simp only [entryLocal, ne_eq, Option.some.injEq]
              intro hll
              subst hll
              rw [hw] at h3
              cases h3
            · rw [if_neg h3] at heq
              by_cases h4 : canDelete l0.path
              · rw [if_pos h4] at heq
                cases heq
              · rw [if_neg h4] at heq
                injection heq with heq
                rw [← heq]
                simp only [entryLocal, ne_eq, Option.some.injEq]
                intro hll
                subst hll
                rw [hc] at h4
                exact h4 rfl
  · intro hc
    refine ⟨?_, ?_, ?_⟩
    · apply List.mem_append.2
      right
      exact List.mem_filterMap.2 ⟨l, hmem, by
        rw [if_neg (by simp [ht]), if_neg (by simp [hsv]),
          if_neg (by simp [hw]), if_neg (by simp [hc])]⟩
    · exact List.mem_filterMap.2 ⟨l, hmem, by
        rw [if_neg (by simp [ht]), if_neg (by simp [hsv]),
          if_neg (by simp [hw]), if_neg (by simp [hc])]⟩
    · intro hcon
      obtain ⟨l0, hl0, heq⟩ := List.mem_filterMap.1 hcon
      by_cases h1 : isTemp l0.getName
      · rw [if_pos h1] at heq
        cases heq
      · rw [if_neg h1] at heq
        by_cases h2 : survivorNamed requests remoteFiles l0.getName
        · rw [if_pos h2] at heq
          cases heq
        · rw [if_neg h2] at heq
          by_cases h3 : workExists (getCreateFileName l0.path)
          · rw [if_pos h3] at heq
            cases heq
          · rw [if_neg h3] at heq
            by_cases h4 : canDelete l0.path
            · rw [if_pos h4] at heq
              injection heq with heq
              rw [heq] at h4
              rw [hc] at h4
              cases h4
            · rw [if_neg h4] at heq
              cases heq

theorem C4_orphan_safety_witness :
    (true = true →
      "/a/old.txt" ∈ (rqMerge (fun _ => false) (fun _ => false) (fun _ => true)
          [] [] [{ path := "/a/old.txt", isDir := false }]).2.deletedLocal ∧
      "/a/old.txt" ∈ (rqMerge (fun _ => false) (fun _ => false) (fun _ => true)
          [] [] [{ path := "/a/old.txt", isDir := false }]).2.deletedWork ∧
      ∀ e ∈ (rqMerge (fun _ => false) (fun _ => false) (fun _ => true)
          [] [] [{ path := "/a/old.txt", isDir := false }]).1,
        entryLocal e ≠ some { path := "/a/old.txt", isDir := false }) ∧
    ((fun (_ : String) => true) "/a/old.txt" = false →
      RQFileEntry.localOnly "/a/old.txt" { path := "/a/old.txt", isDir := false }
          ∈ (rqMerge (fun _ => false) (fun _ => false) (fun _ => true)
              [] [] [{ path := "/a/old.txt", isDir := false }]).1 ∧
      "/a/old.txt" ∈ (rqMerge (fun _ => false) (fun _ => false) (fun _ => true)
          [] [] [{ path := "/a/old.txt", isDir := false }]).2.conflicts ∧
      "/a/old.txt" ∉ (rqMerge (fun _ => false) (fun _ => false) (fun _ => true)
          [] [] [{ path := "/a/old.txt", isDir := false }]).2.deletedLocal) :=
  C4_orphan_safety (fun _ => false) (fun _ => false) (fun _ => true) [] []
    [{ path := "/a/old.txt", isDir := false }]
    { path := "/a/old.txt", isDir := false }
    (by decide) (by decide) (by decide) (by decide) (by decide) (by decide)

theorem charsLead_length : ∀ {xs ys : List Char}, charsLead xs ys = true →
    xs.length ≤ ys.length := by
  intro xs
  induction xs with
  | nil => intro ys _; simp
  | cons c cs ih =>
    intro ys h
    cases ys with
    | nil => simp [charsLead] at h
    | cons d ds =>
      simp only [charsLead, Bool.and_eq_true] at h
      simpa using ih h.2

theorem rebase_sub_ne (oldP newP p : String)
    (h : strLeads (oldP ++ "/") p = true) :
    rebasePath oldP newP p ≠ newP := by
  have hlen : oldP.toList.length + 1 ≤ p.toList.length := by
    have := charsLead_length h
    rw [show (oldP ++ "/").toList = oldP.toList ++ ['/'] from by
      simp [String.toList, String.data_append]] at this
    simpa using this
  have hne : p ≠ oldP := by
    intro he
    subst he
    omega
  rw [rebasePath, if_neg (by simp [hne]), if_pos h]
  intro hcon
  have : (newP.toList ++ p.toList.drop oldP.toList.length).length
      = newP.toList.length := by
    have := congrArg String.toList hcon
    rw [show (String.mk (newP.toList ++ p.toList.drop oldP.toList.length)).toList
        = newP.toList ++ p.toList.drop oldP.toList.length from rfl] at this
    rw [this]
  rw [List.length_append, List.length_drop] at this
  omega

theorem rename_find (oldName newName : String) (fi : FileInfo) :
    ∀ (files : List FileInfo), fi ∈ files → fi.path = oldName →
    (∀ f ∈ files, f.path = oldName → f = fi) →
    (∀ f ∈ files, f.path ≠ newName) →
    (files.map (fun f => { f with path := rebasePath oldName newName f.path })).find?
        (fun f => f.path == newName) = some { fi with path := newName } := by
  intro files
  induction files with
  | nil => intro h; simp at h
  | cons f rest ih =>
    intro hmem hpath hold hnew
    by_cases hf : f.path = oldName
    · have hffi : f = fi := hold f (List.mem_cons_self f rest) hf
      subst hffi
      rw [List.map_cons, List.find?_cons_of_pos]
      · rw [show rebasePath oldName newName f.path = newName from by
          rw [rebasePath, if_pos (by simp [hf])]]
      · simp only
        rw [show rebasePath oldName newName f.path = newName from by
          rw [rebasePath, if_pos (by simp [hf])]]
        simp
    · have hfi : fi ∈ rest := by
        rcases List.mem_cons.1 hmem with h | h
        · exfalso
          rw [h] at hpath
          exact hf hpath
        · exact h
      rw [List.map_cons, List.find?_cons_of_neg]
      · exact ih hfi hpath (fun g hg hgp => hold g (List.mem_cons_of_mem f hg) hgp)
          (fun g hg => hnew g (List.mem_cons_of_mem f hg))
      · simp only [beq_iff_eq]
        cases hsub : strLeads (oldName ++ "/") f.path with
        | true =>
          simpa using rebase_sub_ne oldName newName f.path hsub
        | false =>
          rw [show rebasePath oldName newName f.path = f.path from by
            rw [rebasePath, if_neg (by simp [hf]), if_neg (by simp [hsub])]]
          simpa using hnew f (List.mem_cons_self f rest)

/-- C8 counterexample: a rename of a plain (non-directory) local file where
both names match the temp pattern performs no remote call and enqueues
nothing: the claim that a file rename always enqueues a MOVE fails
(rq/tree.js line 523 calls `queueData`, whose MOVE skip condition holds
when both sides are temp). -/
theorem C8_counterexample :
    localExistsB
        { localFiles := [{ path := "/a", isDir := true },
                         { path := "/a/~x.tmp", isDir := false }],
          workFiles := [], queue := [], createdFiles := [] } "/a/~x.tmp"
      = true ∧
    (∀ f ∈ ({ localFiles := [{ path := "/a", isDir := true },
                             { path := "/a/~x.tmp", isDir := false }],
              workFiles := [], queue := [], createdFiles := [] }
          : TreeState).localFiles,
        f.path = "/a/~x.tmp" → f.isDir = false) ∧
    ((RQTree.rename tempName
        { remoteRoot := "http://remote/api/", localRoot := "/local" }
        (.ok ()) "/a/~x.tmp" "/a/~y.tmp"
        { localFiles := [{ path := "/a", isDir := true },
                         { path := "/a/~x.tmp", isDir := false }],
          workFiles := [], queue := [], createdFiles := [] }).1).state.queue
      = [] ∧
    (RQTree.rename tempName
        { remoteRoot := "http://remote/api/", localRoot := "/local" }
        (.ok ()) "/a/~x.tmp" "/a/~y.tmp"
        { localFiles := [{ path := "/a", isDir := true },
                         { path := "/a/~x.tmp", isDir := false }],
          workFiles := [], queue := [], createdFiles := [] }).2
      = [] := by
  refine ⟨by decide, by decide, by decide, by decide⟩

/-- C8 as amended: when the old name exists locally, a rename of a
directory is performed eagerly on the remote tree and re-parents the
pending queue entries through `updatePath`, with no MOVE enqueued; a
rename of a plain file performs no remote call and enqueues a
MOVE(oldName, newName) entry, unless both names match the temp pattern,
in which case nothing is enqueued (rq/tree.js lines 479-566). -/
theorem C8_rename_policy (isTemp : String → Bool) (cfg : ShareConfig)
    (oldName newName : String) (s : TreeState) (fi : FileInfo)
    (hmem : fi ∈ s.localFiles) (hpath : fi.path = oldName)
    (hold : ∀ f ∈ s.localFiles, f.path = oldName → f = fi)
    (hnew : ∀ f ∈ s.localFiles, f.path ≠ newName) :
    (fi.isDir = true →
      (RQTree.rename isTemp cfg (.ok ()) oldName newName s).2
          = [.renameRemote oldName newName] ∧
      ((RQTree.rename isTemp cfg (.ok ()) oldName newName s).1).state.queue
          = RequestQueue.updatePath oldName newName s.queue) ∧
    (fi.isDir = false →
      (RQTree.rename isTemp cfg (.ok ()) oldName newName s).2 = [] ∧
      ((isTemp oldName && isTemp newName) = false →
        ((RQTree.rename isTemp cfg (.ok ()) oldName newName s).1).state.queue
          = s.queue ++
            [{ method := "MOVE", path := oldName, destPath := some newName,
               remotePrefix := cfg.remoteRoot,
               localPrefix := cfg.localRoot }]) ∧
      ((isTemp oldName && isTemp newName) = true →
        ((RQTree.rename isTemp cfg (.ok ()) oldName newName s).1).state.queue
          = s.queue)) := by
  have hexB : localExistsB s oldName = true := by
    rw [localExistsB, List.any_eq_true]
    exact ⟨fi, hmem, by simp [hpath]⟩
  have hfind := rename_find oldName newName fi s.localFiles hmem hpath hold hnew
  have h2 : (RQTree.rename isTemp cfg (.ok ()) oldName newName s).2
      = if fi.isDir then [RemoteOp.renameRemote oldName newName] else [] := by
    simp only [RQTree.rename, hexB, if_true, hfind, Option.map_some,
      Option.getD_some]
    by_cases hce : getCreateFileName oldName ∈ s.workFiles <;>
      by_cases hwo : oldName ∈ s.workFiles <;>
      by_cases hd : fi.isDir <;>
      simp [hce, hwo, hd]
  have hq : ((RQTree.rename isTemp cfg (.ok ()) oldName newName s).1).state.queue
      = if fi.isDir then RequestQueue.updatePath oldName newName s.queue
        else RQTree.queueDataApply isTemp cfg oldName "MOVE" (some newName)
          (.ok ()) s.queue := by
    simp only [RQTree.rename, hexB, if_true, hfind, Option.map_some,
      Option.getD_some]
    by_cases hce : getCreateFileName oldName ∈ s.workFiles <;>
      by_cases hwo : oldName ∈ s.workFiles <;>
      by_cases hd : fi.isDir <;>
      simp [hce, hwo, hd]
  constructor
  · intro hdir
    rw [h2, hq, if_pos hdir, if_pos hdir]
    exact ⟨rfl, rfl⟩
  · intro hdir
    refine ⟨?_, ?_, ?_⟩
    · rw [h2, if_neg (by simp [hdir])]
    · intro htt
      rw [hq, if_neg (by simp [hdir])]
      rw [RQTree.queueDataApply,
        show RQTree.queueData isTemp cfg oldName "MOVE" (some newName)
          = some { method := "MOVE", path := oldName, destPath := some newName,
                   remotePrefix := cfg.remoteRoot,
                   localPrefix := cfg.localRoot } from by
          rw [RQTree.queueData]
          simp only
          rw [if_pos (by simp [htt])]]
    · intro htt
      rw [hq, if_neg (by simp [hdir])]
      rw [RQTree.queueDataApply,
        show RQTree.queueData isTemp cfg oldName "MOVE" (some newName)
          = none from by
          rw [RQTree.queueData]
          simp only
          rw [if_neg (by simp [htt])]]

theorem C8_rename_policy_witness :
    ((RQTree.rename tempName
        { remoteRoot := "http://remote/api/", localRoot := "/local" }
        (.ok ()) "/a/x.txt" "/a/y.txt"
        { localFiles := [{ path := "/a", isDir := true },
                         { path := "/a/x.txt", isDir := false }],
          workFiles := [], queue := [],
          createdFiles := [] }).1).state.queue
      = ([] : List QueueEntry) ++
          [{ method := "MOVE", path := "/a/x.txt", destPath := some "/a/y.txt",
             remotePrefix := "http://remote/api/", localPrefix := "/local" }] :=
  ((C8_rename_policy tempName
      { remoteRoot := "http://remote/api/", localRoot := "/local" }
      "/a/x.txt" "/a/y.txt"
      { localFiles := [{ path := "/a", isDir := true },
                       { path := "/a/x.txt", isDir := false }],
        workFiles := [], queue := [], createdFiles := [] }
      { path := "/a/x.txt", isDir := false }
      (by decide) (by decide) (by decide) (by decide)).2 (by decide)).2.1
    (by decide)

theorem processLocal_names (isTemp workExists canDelete : String → Bool)
    (remoteFiles : List FileInfo) (lookup rlook : List (String × Nat))
    (N : String) :
    ∀ (ls : List FileInfo) (rqFiles : List RQFileEntry) (eff : MergeEffects),
    (∀ e ∈ rqFiles, entryName e ≠ N) →
    (∀ l ∈ ls, FileInfo.getName l ≠ N) →
    ∀ e ∈ (processLocal isTemp workExists canDelete remoteFiles lookup rlook
        ls rqFiles eff).1, entryName e ≠ N := by
  intro ls
  induction ls with
  | nil =>
    intro rqFiles eff hrq _ e he
    exact hrq e he
  | cons l rest ih =>
    intro rqFiles eff hrq hls e he
    have hlN : FileInfo.getName l ≠ N := hls l (List.mem_cons_self l rest)
    have hrest : ∀ l1 ∈ rest, FileInfo.getName l1 ≠ N :=
      fun l1 h1 => hls l1 (List.mem_cons_of_mem l h1)
    by_cases ht : isTemp l.getName
    · rw [processLocal, if_pos ht] at he
      refine ih _ eff ?_ hrest e he
      intro e1 he1
      rcases List.mem_append.1 he1 with h1 | h1
      · exact hrq e1 h1
      · rw [List.mem_singleton.1 h1]
        exact hlN
    · rw [processLocal, if_neg ht] at he
      cases hl : assocFind lookup l.getName with
      | some j =>
        rw [hl] at he
        refine ih _ eff ?_ hrest e he
        intro e1 he1
        rcases List.mem_or_eq_of_mem_set he1 with h1 | h1
        · exact hrq e1 h1
        · rw [h1]
          exact hlN
      | none =>
        rw [hl] at he
        by_cases hw : workExists (getCreateFileName l.path)
        · rw [if_pos hw] at he
          refine ih _ eff ?_ hrest e he
          intro e1 he1
          rcases List.mem_append.1 he1 with h1 | h1
          · exact hrq e1 h1
          · rw [List.mem_singleton.1 h1]
            exact hlN
        · rw [if_neg hw] at he
          by_cases hc : canDelete l.path
          · rw [if_pos hc] at he
            exact ih _ _ hrq hrest e he
          · rw [if_neg hc] at he
            refine ih _ _ ?_ hrest e he
            intro e1 he1
            rcases List.mem_append.1 he1 with h1 | h1
            · exact hrq e1 h1
            · rw [List.mem_singleton.1 h1]
              exact hlN

theorem rqMerge_names_avoid (isTemp workExists canDelete : String → Bool)
    (requests : List (String × String)) (remoteFiles localFiles : List FileInfo)
    (N : String)
    (hreq : assocFind requests N = some "DELETE")
    (hloc : ∀ l ∈ localFiles, FileInfo.getName l ≠ N) :
    ∀ e ∈ (rqMerge isTemp workExists canDelete requests remoteFiles
        localFiles).1, entryName e ≠ N := by
  intro e he
  rw [rqMerge, remotePass_closed] at he
  simp only [List.nil_append, List.append_nil, List.length_nil] at he
  refine processLocal_names isTemp workExists canDelete remoteFiles
    (pass1Lookup requests remoteFiles 0) (pass1RLook requests remoteFiles 0)
    N localFiles _ ⟨[], [], []⟩ ?_ hloc e he
  intro e1 he1
  obtain ⟨r, hrmem, heq⟩ := List.mem_map.1 he1
  have hsv : surviveB requests r = true := (List.mem_filter.1 hrmem).2
  rw [← heq]
  simp only [entryName]
  intro hname
  rw [surviveB, hname, hreq] at hsv
  simp at hsv

/-- C3: after `delete(n)` returns for a name present in L, the name is gone
from L, and as long as the enqueued DELETE for its basename is reported by
`rq.getRequests`, a `list` of its parent directory (with the parent still
cached) returns a merged listing in which no entry carries the basename of
`n`: the queued DELETE hides the still-present remote entry, and the local
copy was removed (rq/tree.js lines 391-418 and 203-209). -/
theorem C3_delete_hides (isTemp workExists canDelete : String → Bool)
    (cfg : ShareConfig) (qres : Except QErr Unit) (s : TreeState)
    (n pattern : String) (requests : List (String × String))
    (remoteFiles : List FileInfo)
    (hmem : localExistsB s n = true)
    (hnp : getParentPath n ≠ n)
    (hparent : localExistsB s (getParentPath n) = true)
    (hpat1 : getParentPath pattern = getParentPath n)
    (hpat2 : getPathName pattern = "*")
    (huniq : ∀ f ∈ s.localFiles, getParentPath f.path = getParentPath n →
      FileInfo.getName f = getPathName n → f.path = n)
    (hreq : assocFind requests (getPathName n) = some "DELETE") :
    localExistsB (RQTree.delete isTemp cfg qres n s).state n = false ∧
    ∃ files eff,
      RQTree.listOfState isTemp workExists canDelete
          (RQTree.delete isTemp cfg qres n s).state pattern remoteFiles
          (.ok requests) = .merged files eff ∧
      ∀ e ∈ files, entryName e ≠ getPathName n := by
  have hstate : (RQTree.delete isTemp cfg qres n s).state.localFiles
      = s.localFiles.filter (fun f => f.path ≠ n) := by
    rw [RQTree.delete, if_pos hmem]
  constructor
  · rw [localExistsB, hstate]
    rw [Bool.eq_false_iff]
    intro hany
    obtain ⟨f, hf, hfp⟩ := List.any_eq_true.1 hany
    have hne := List.of_mem_filter hf
    simp only [decide_eq_true_eq] at hne
    exact hne (by simpa using hfp)
  · have hpar2 : localExistsB (RQTree.delete isTemp cfg qres n s).state
        (getParentPath pattern) = true := by
      rw [localExistsB, hstate, hpat1, List.any_eq_true]
      obtain ⟨f, hf, hfp⟩ := List.any_eq_true.1 hparent
      have hfp1 : f.path = getParentPath n := by simpa using hfp
      refine ⟨f, List.mem_filter.2 ⟨hf, by simp [hfp1, hnp]⟩, by simp [hfp1]⟩
    rcases hM : rqMerge isTemp workExists canDelete requests remoteFiles
        (FSTree.list (RQTree.delete isTemp cfg qres n s).state.localFiles
          pattern) with ⟨files, eff⟩
    refine ⟨files, eff, ?_, ?_⟩
    · rw [RQTree.listOfState, hpar2]
      simp [RQTree.list, hM]
    · intro e he
      have hloc : ∀ l ∈ FSTree.list
          (RQTree.delete isTemp cfg qres n s).state.localFiles pattern,
          FileInfo.getName l ≠ getPathName n := by
        intro l hl
        rw [FSTree.list] at hl
        simp only [hpat2, beq_self_eq_true, if_true] at hl
        have hl1 := List.mem_filter.1 hl
        have hlmem : l ∈ s.localFiles := by
          have := hl1.1
          rw [hstate] at this
          exact List.mem_of_mem_filter this
        have hlne : l.path ≠ n := by
          have := hl1.1
          rw [hstate] at this
          have := List.of_mem_filter this
          simpa using this
        have hlpar : getParentPath l.path = getParentPath n := by
          have := hl1.2
          rw [← hpat1]
          simpa using this
        intro hname
        exact hlne (huniq l hlmem hlpar hname)
      refine rqMerge_names_avoid isTemp workExists canDelete requests
        remoteFiles _ (getPathName n) hreq hloc e ?_
      rw [hM]
      exact he

theorem C3_delete_hides_witness :
    localExistsB (RQTree.delete (fun _ => false)
        { remoteRoot := "http://remote/api/", localRoot := "/local" }
        (.ok ()) "/a/x.txt"
        { localFiles := [{ path := "/a", isDir := true },
                         { path := "/a/x.txt", isDir := false }],
          workFiles := [], queue := [], createdFiles := [] }).state
        "/a/x.txt" = false ∧
    ∃ files eff,
      RQTree.listOfState (fun _ => false) (fun _ => false) (fun _ => true)
          (RQTree.delete (fun _ => false)
            { remoteRoot := "http://remote/api/", localRoot := "/local" }
            (.ok ()) "/a/x.txt"
            { localFiles := [{ path := "/a", isDir := true },
                             { path := "/a/x.txt", isDir := false }],
              workFiles := [], queue := [], createdFiles := [] }).state
          "/a/*" [{ path := "/a/x.txt", isDir := false }]
          (.ok [("x.txt", "DELETE")]) = .merged files eff ∧
      ∀ e ∈ files, entryName e ≠ getPathName "/a/x.txt" :=
  C3_delete_hides (fun _ => false) (fun _ => false) (fun _ => true)
    { remoteRoot := "http://remote/api/", localRoot := "/local" } (.ok ())
    { localFiles := [{ path := "/a", isDir := true },
                     { path := "/a/x.txt", isDir := false }],
      workFiles := [], queue := [], createdFiles := [] }
    "/a/x.txt" "/a/*" [("x.txt", "DELETE")]
    [{ path := "/a/x.txt", isDir := false }]
    (by decide) (by decide) (by decide) (by decide) (by decide) (by decide)
    (by decide)
